import Mathlib

/-!
Verification of the quran-validator engine (normalizer, corpus index,
validator, fabrication analyzer) against its natural-language specification.

The TypeScript sources are embedded shallowly over `List Char`:
* `src/src/normalizer.ts` — the normalization pipeline (`normalizeArabic`,
  `containsArabic`), each regex stage becoming an explicit recursive
  function on the character list.  The regex lookahead/lookbehind stages
  evaluate their context against the original string, exactly as
  JavaScript `String.replace` does.
* the multi-riwaya validator (`QuranValidator` of the unnamed validator
  source, second revision) — `validate`, `validateAgainst`,
  `validateMultiRiwaya`, `findRiwayaMatchesForRef`, `analyzeFabrication`,
  `getVerse`, `getVerseRange`, `findExactMatch`, `findMismatchIndex`.

Strings are modelled as lists of Unicode scalar values.  Every character
manipulated by the source is in the Basic Multilingual Plane, where
JavaScript's UTF-16 indices and scalar-value indices agree.  The corpus
data files (quran-verses.min.json, riwayat/*.json) are not part of the
source tree, so the validator is parameterized by the verse lists and
facts about the concrete data are taken from the specification's data
model (noted at each use).
-/

namespace QV

/-- Numeric code point of a character. -/
def cv (c : Char) : Nat := c.toNat

-- Named characters of the Arabic block used by the normalizer.
def chHamza : Char := 'ء'        -- ء standalone hamza
def chMadda : Char := 'آ'        -- آ alef with madda
def chAlefHA : Char := 'أ'       -- أ alef with hamza above
def chWawHamza : Char := 'ؤ'     -- ؤ waw with hamza above
def chAlefHB : Char := 'إ'       -- إ alef with hamza below
def chYaHamza : Char := 'ئ'      -- ئ ya with hamza above
def chAlef : Char := 'ا'         -- ا plain alef
def chBeh : Char := 'ب'          -- ب
def chTehMarbuta : Char := 'ة'   -- ة
def chSeen : Char := 'س'         -- س
def chTatweel : Char := 'ـ'      -- ـ
def chLam : Char := 'ل'          -- ل
def chMeem : Char := 'م'         -- م
def chNoon : Char := 'ن'         -- ن
def chHeh : Char := 'ه'          -- ه
def chWaw : Char := 'و'          -- و
def chAlefMaqsura : Char := 'ى'  -- ى
def chYa : Char := 'ي'           -- ي
def chMaddaMark : Char := 'ٓ'    -- combining madda above
def chHamzaAbove : Char := 'ٔ'   -- combining hamza above
def chHamzaBelow : Char := 'ٕ'   -- combining hamza below
def chSuperAlef : Char := 'ٰ'    -- superscript alef
def chAlefWasla : Char := 'ٱ'    -- ٱ alef wasla
def chFeh : Char := 'ف'          -- ف
def chRa : Char := 'ر'           -- ر
def chFatha : Char := 'َ'        -- fatha diacritic
def chKasra : Char := 'ِ'        -- kasra diacritic
def chSukun : Char := 'ْ'        -- sukun diacritic

/-- JavaScript whitespace class `\s` (also used by `String.prototype.trim`):
tab through carriage return, space, NBSP, ogham space, the U+2000 block,
line/paragraph separators, narrow NBSP, medium mathematical space,
ideographic space and the BOM. -/
def isJsSpace (c : Char) : Bool :=
  decide ((0x9 ≤ cv c ∧ cv c ≤ 0xD) ∨ cv c = 0x20 ∨ cv c = 0xA0 ∨
    cv c = 0x1680 ∨ (0x2000 ≤ cv c ∧ cv c ≤ 0x200A) ∨ cv c = 0x2028 ∨
    cv c = 0x2029 ∨ cv c = 0x202F ∨ cv c = 0x205F ∨ cv c = 0x3000 ∨
    cv c = 0xFEFF)

/-- ARABIC_PATTERNS.bidiControls: `[‌‍‎‏؜]`. -/
def isBidiControl (c : Char) : Bool :=
  decide (cv c = 0x200C ∨ cv c = 0x200D ∨ cv c = 0x200E ∨ cv c = 0x200F ∨
    cv c = 0x61C)

/-- ARABIC_PATTERNS.sectionMarkers: `[۝-۞]`. -/
def isSectionMarker (c : Char) : Bool :=
  decide (0x6DD ≤ cv c ∧ cv c ≤ 0x6DE)

/-- ARABIC_PATTERNS.diacritics: `[ً-ٕٓ-ٟۖ-ۭ]`
(U+0654 hamza above and U+0670 superscript alef deliberately excluded,
they are handled by the Uthmani heuristics). -/
def isDiacriticRm (c : Char) : Bool :=
  decide ((0x64B ≤ cv c ∧ cv c ≤ 0x653) ∨ (0x655 ≤ cv c ∧ cv c ≤ 0x65F) ∨
    (0x6D6 ≤ cv c ∧ cv c ≤ 0x6ED))

/-- The mark class `[ً-ٟ]` used inside the hamza lookarounds. -/
def isHamzaCtxMark (c : Char) : Bool := decide (0x64B ≤ cv c ∧ cv c ≤ 0x65F)

/-- Alef family `[اأإآٱ]` appearing in the hamza-removal lookaheads. -/
def isAlefFamily (c : Char) : Bool :=
  decide (c = chAlef ∨ c = chAlefHA ∨ c = chAlefHB ∨ c = chMadda ∨
    c = chAlefWasla)

/-- ARABIC_PATTERNS.alefVariants: `[أإآٱ]` (plain alef excluded). -/
def isAlefVariant (c : Char) : Bool :=
  decide (c = chAlefHA ∨ c = chAlefHB ∨ c = chMadda ∨ c = chAlefWasla)

/-- The consonant class of ARABIC_PATTERNS.alefBeforeNoon's lookbehind:
`[بتثجحخدذرزسشصضطظعغفقكلمنهوي]` — all base consonants except alef,
hamza forms, teh marbuta and alef maqsura. -/
def isNoonCtxCons (c : Char) : Bool :=
  decide (cv c = 0x628 ∨ (0x62A ≤ cv c ∧ cv c ≤ 0x63A) ∨
    (0x641 ≤ cv c ∧ cv c ≤ 0x648) ∨ cv c = 0x64A)

/-- Arabic Unicode ranges tested by `containsArabic`. -/
def isArabicRange (c : Char) : Bool :=
  decide ((0x600 ≤ cv c ∧ cv c ≤ 0x6FF) ∨ (0x750 ≤ cv c ∧ cv c ≤ 0x77F) ∨
    (0x8A0 ≤ cv c ∧ cv c ≤ 0x8FF) ∨ (0xFB50 ≤ cv c ∧ cv c ≤ 0xFDFF) ∨
    (0xFE70 ≤ cv c ∧ cv c ≤ 0xFEFF))

/-- The source calls `containsArabic(text)` which regex-tests for any
character of the Arabic ranges. -/
def containsArabic (s : List Char) : Bool := s.any isArabicRange

/-- Model of `String.prototype.normalize('NFKC')`, scoped to the
characters this development manipulates: the compatibility
decompositions of the Arabic ligatures named by the specification
(the single-codepoint Allah ligature U+FDF2 and the lam-alef
presentation forms U+FEFB/U+FEFC), identity on every other character.
All other characters appearing in this file are NFKC-fixed points. -/
def nfkcDecompChar (c : Char) : List Char :=
  if cv c = 0xFDF2 then [chAlef, chLam, chLam, chHeh]
  else if cv c = 0xFEFB ∨ cv c = 0xFEFC then [chLam, chAlef]
  else [c]

/-- Canonical recomposition of an adjacent Arabic base letter and
combining hamza/madda mark, the only compositions possible among the
characters of this development (NFC pairs ا+ٓ→آ, ا+ٔ→أ, ا+ٕ→إ,
و+ٔ→ؤ, ي+ٔ→ئ).  The standalone hamza ء has no composition. -/
def nfkcCompose : List Char → List Char
  | a :: b :: t =>
    if a = chAlef ∧ b = chMaddaMark then chMadda :: nfkcCompose t
    else if a = chAlef ∧ b = chHamzaAbove then chAlefHA :: nfkcCompose t
    else if a = chAlef ∧ b = chHamzaBelow then chAlefHB :: nfkcCompose t
    else if a = chWaw ∧ b = chHamzaAbove then chWawHamza :: nfkcCompose t
    else if a = chYa ∧ b = chHamzaAbove then chYaHamza :: nfkcCompose t
    else a :: nfkcCompose (b :: t)
  | l => l

/-- Step 1 of the pipeline: `result.normalize('NFKC')`. -/
def nfkc (s : List Char) : List Char := (s.map nfkcDecompChar).flatten

/-- Step: `replace(bidiControls, '')`. -/
def stripBidi (s : List Char) : List Char := s.filter (fun c => !isBidiControl c)

/-- Step (unconditional in the source): `replace(sectionMarkers, '')`. -/
def stripSectionMarkers (s : List Char) : List Char :=
  s.filter (fun c => !isSectionMarker c)

/-- Heuristic 4a: `replace(superscriptAlef, 'ا')`. -/
def mapSuperAlef (s : List Char) : List Char :=
  s.map (fun c => if c = chSuperAlef then chAlef else c)

/-- Lookahead `(?=[ً-ٟ]*X)`: skip the mark run of the original
suffix, then test its first character. -/
def afterMarks (s : List Char) : Option Char :=
  (s.dropWhile isHamzaCtxMark).head?

/-- Heuristic 4b: `replace(/ٔ(?=[ً-ٟ]*و)/g, 'و')`.
The lookahead inspects the original suffix, so the recursion passes the
untouched tail. -/
def hamzaAboveToWaw : List Char → List Char
  | [] => []
  | c :: t =>
    (if c = chHamzaAbove ∧ afterMarks t = some chWaw then chWaw else c) ::
      hamzaAboveToWaw t

/-- Lookbehind `(?<=ي[ً-ٟـ]*)`: walk the reversed
original prefix over marks and tatweel, then test for ya. -/
def yaBehindMarks (rp : List Char) : Bool :=
  decide ((rp.dropWhile (fun c => isHamzaCtxMark c || decide (c = chTatweel))).head? =
    some chYa)

/-- Heuristic 4c: `replace(/(?<=ي[ً-ٟـ]*)ٔ/g, '')`.
`rp` carries the reversed original prefix (deleted characters included,
because JavaScript evaluates the lookbehind against the input string). -/
def hamzaAboveAfterYaAux (rp : List Char) : List Char → List Char
  | [] => []
  | c :: t =>
    if c = chHamzaAbove ∧ yaBehindMarks rp = true then
      hamzaAboveAfterYaAux (c :: rp) t
    else c :: hamzaAboveAfterYaAux (c :: rp) t

def hamzaAboveAfterYa (s : List Char) : List Char := hamzaAboveAfterYaAux [] s

/-- Heuristic 4d: `replace(/ٔ(?=[ً-ٟ]*[اأإآٱ])/g, '')`. -/
def hamzaAboveBeforeAlefDrop : List Char → List Char
  | [] => []
  | c :: t =>
    if c = chHamzaAbove ∧ (∃ a, afterMarks t = some a ∧ isAlefFamily a = true) then
      hamzaAboveBeforeAlefDrop t
    else c :: hamzaAboveBeforeAlefDrop t

/-- Heuristic 4e: `replace(/ء(?=[ً-ٟ]*[اأإآٱ])/g, '')`
(hamzaStandaloneBeforeAlef). -/
def hamzaStandaloneBeforeAlefDrop : List Char → List Char
  | [] => []
  | c :: t =>
    if c = chHamza ∧ (∃ a, afterMarks t = some a ∧ isAlefFamily a = true) then
      hamzaStandaloneBeforeAlefDrop t
    else c :: hamzaStandaloneBeforeAlefDrop t

/-- Heuristic 4f: `replace(hamzaAbove, 'ا')` — every remaining hamza above
becomes a plain alef. -/
def mapHamzaAboveToAlef (s : List Char) : List Char :=
  s.map (fun c => if c = chHamzaAbove then chAlef else c)

/-- Step 5: `replace(diacritics, '')`. -/
def removeDiacriticsL (s : List Char) : List Char :=
  s.filter (fun c => !isDiacriticRm c)

/-- Step 6: `replace(alefVariants, 'ا')`. -/
def mapAlefVariants (s : List Char) : List Char :=
  s.map (fun c => if isAlefVariant c then chAlef else c)

/-- Step: `replace(alefMaqsura, 'ي')`. -/
def mapAlefMaqsura (s : List Char) : List Char :=
  s.map (fun c => if c = chAlefMaqsura then chYa else c)

/-- Step: `replace(tehMarbuta, 'ه')`. -/
def mapTehMarbuta (s : List Char) : List Char :=
  s.map (fun c => if c = chTehMarbuta then chHeh else c)

/-- Step: `replace(tatweel, '')`. -/
def removeTatweelL (s : List Char) : List Char :=
  s.filter (fun c => !decide (c = chTatweel))

/-- Hamza carrier step, first rule: `replace(wawHamza, 'و')`. -/
def mapWawHamza (s : List Char) : List Char :=
  s.map (fun c => if c = chWawHamza then chWaw else c)

/-- Hamza carrier step, second rule: `replace(/ئ(?=و)/g, 'و')` — direct
lookahead, no mark skipping. -/
def yaHamzaBeforeWawL : List Char → List Char
  | [] => []
  | c :: t =>
    (if c = chYaHamza ∧ t.head? = some chWaw then chWaw else c) ::
      yaHamzaBeforeWawL t

/-- Hamza carrier step, third rule: `replace(/(?<=ي)ئ/g, '')` — the
lookbehind tests the immediately preceding original character. -/
def yaHamzaAfterYaDropAux (prev : Option Char) : List Char → List Char
  | [] => []
  | c :: t =>
    if c = chYaHamza ∧ prev = some chYa then yaHamzaAfterYaDropAux (some c) t
    else c :: yaHamzaAfterYaDropAux (some c) t

def yaHamzaAfterYaDrop (s : List Char) : List Char := yaHamzaAfterYaDropAux Option.none s

/-- Hamza carrier step, last rule: `replace(yaHamza, 'ي')`. -/
def mapYaHamzaFinal (s : List Char) : List Char :=
  s.map (fun c => if c = chYaHamza then chYa else c)

/-- Digit step: Arabic-Indic `٠-٩` and Eastern Arabic `۰-۹` digits map to
the ASCII digit `String(code - 0x0660)` / `String(code - 0x06F0)`. -/
def digitMap (c : Char) : Char :=
  if 0x660 ≤ cv c ∧ cv c ≤ 0x669 then Char.ofNat (cv c - 0x630)
  else if 0x6F0 ≤ cv c ∧ cv c ≤ 0x6F9 then Char.ofNat (cv c - 0x6C0)
  else c

def mapDigits (s : List Char) : List Char := s.map digitMap

/-- Auxiliary length bound used by the whitespace / word-splitting
recursions. -/
theorem length_dropWhile_le (p : Char → Bool) (l : List Char) :
    (l.dropWhile p).length ≤ l.length := by
  induction l with
  | nil => simp [List.dropWhile]
  | cons c t ih =>
    by_cases h : p c = true
    · simpa [List.dropWhile, h] using Nat.le_succ_of_le ih
    · simp [List.dropWhile, h]

/-- `replace(/\s+/g, ' ')`: every maximal whitespace run becomes one
space — a space is emitted at the first character of a run and the rest
of the run is skipped (`prevSpace` tracks being inside a run). -/
def squeezeWsAux (prevSpace : Bool) : List Char → List Char
  | [] => []
  | c :: t =>
    if isJsSpace c then
      if prevSpace then squeezeWsAux true t else ' ' :: squeezeWsAux true t
    else c :: squeezeWsAux false t

def squeezeWs (s : List Char) : List Char := squeezeWsAux false s

/-- `String.prototype.trim()` — strips JavaScript whitespace from both
ends. -/
def jsTrim (s : List Char) : List Char :=
  ((s.dropWhile isJsSpace).reverse.dropWhile isJsSpace).reverse

/-- Whitespace step: `replace(multipleSpaces, ' ').trim()`. -/
def collapseWs (s : List Char) : List Char := jsTrim (squeezeWs s)

/-- Lookahead `(?=\s|$)` at the end of the word-boundary heuristics. -/
def endOrSpace : List Char → Bool
  | [] => true
  | c :: _ => isJsSpace c

/-- Heuristic 10a: `replace(/(?<=[..consonants..])ا(?=ن)/g, '')` — drop an
alef standing between a consonant and a noon.  `prev` is the previous
original character (JavaScript lookarounds read the input string). -/
def alefNoonAux (prev : Option Char) : List Char → List Char
  | [] => []
  | c :: t =>
    if c = chAlef ∧ (∃ p, prev = some p ∧ isNoonCtxCons p = true) ∧
        t.head? = some chNoon then
      alefNoonAux (some c) t
    else c :: alefNoonAux (some c) t

def alefNoon (s : List Char) : List Char := alefNoonAux Option.none s

/-- Heuristic 10b: `replace(/يا(?=\s|$)/g, 'ي')` — collapse a trailing
ya+alef at a word boundary to ya.  Non-overlapping left-to-right matches
of the two-character pattern. -/
def yaAlefEnd : List Char → List Char
  | c1 :: c2 :: t =>
    if c1 = chYa ∧ c2 = chAlef ∧ endOrSpace t then chYa :: yaAlefEnd t
    else c1 :: yaAlefEnd (c2 :: t)
  | l => l

/-- Heuristic 10c: `replace(/لاه(?=\s|$)/g, 'له')`. -/
def lamAlefHehEnd : List Char → List Char
  | c1 :: c2 :: c3 :: t =>
    if c1 = chLam ∧ c2 = chAlef ∧ c3 = chHeh ∧ endOrSpace t then
      chLam :: chHeh :: lamAlefHehEnd t
    else c1 :: lamAlefHehEnd (c2 :: c3 :: t)
  | l => l

/-- NormalizationOptions with all fields resolved (the source's
`Required<NormalizationOptions>`). -/
structure NormOptions where
  removeDiacritics : Bool
  normalizeAlef : Bool
  normalizeAlefMaqsura : Bool
  normalizeTehMarbuta : Bool
  removeTatweel : Bool
  normalizeHamza : Bool
  normalizeWhitespace : Bool
  normalizePresentationForms : Bool
  normalizeDigits : Bool
  stripBidiControls : Bool
  applyUthmaniHeuristics : Bool
deriving DecidableEq

/-- The module-level DEFAULT_OPTIONS of normalizer.ts: everything on. -/
def defaultNormOptions : NormOptions :=
  ⟨true, true, true, true, true, true, true, true, true, true, true⟩

/-- The caller-facing `NormalizationOptions` object: every field optional
(TypeScript `field?: boolean`). -/
structure NormOptionsPartial where
  removeDiacritics : Option Bool := Option.none
  normalizeAlef : Option Bool := Option.none
  normalizeAlefMaqsura : Option Bool := Option.none
  normalizeTehMarbuta : Option Bool := Option.none
  removeTatweel : Option Bool := Option.none
  normalizeHamza : Option Bool := Option.none
  normalizeWhitespace : Option Bool := Option.none
  normalizePresentationForms : Option Bool := Option.none
  normalizeDigits : Option Bool := Option.none
  stripBidiControls : Option Bool := Option.none
  applyUthmaniHeuristics : Option Bool := Option.none
deriving DecidableEq

/-- The spread merge `{ ...DEFAULT_OPTIONS, ...options }`. -/
def resolveOptions (p : NormOptionsPartial) : NormOptions :=
  ⟨p.removeDiacritics.getD true, p.normalizeAlef.getD true,
    p.normalizeAlefMaqsura.getD true, p.normalizeTehMarbuta.getD true,
    p.removeTatweel.getD true, p.normalizeHamza.getD true,
    p.normalizeWhitespace.getD true, p.normalizePresentationForms.getD true,
    p.normalizeDigits.getD true, p.stripBidiControls.getD true,
    p.applyUthmaniHeuristics.getD true⟩

/-- One optional pipeline stage: apply `f` when its option flag is set
(the source guards each `result = ...` assignment with
`if (opts.flag)`). -/
def stageIf (flag : Bool) (f : List Char → List Char) (s : List Char) : List Char :=
  if flag then f s else s

/-- `normalizeArabic(text, options)` with the options already resolved:
the fixed stage pipeline of normalizer.ts lines 122-240, in source
order.  The section-marker removal is unconditional, exactly as in the
source. -/
def normalizeArabicO (o : NormOptions) (s : List Char) : List Char :=
  stageIf o.applyUthmaniHeuristics
    (fun r => lamAlefHehEnd (yaAlefEnd (alefNoon r)))
    (stageIf o.normalizeWhitespace collapseWs
      (stageIf o.normalizeDigits mapDigits
        (stageIf o.normalizeHamza
          (fun r => mapYaHamzaFinal (yaHamzaAfterYaDrop
            (yaHamzaBeforeWawL (mapWawHamza r))))
          (stageIf o.removeTatweel removeTatweelL
            (stageIf o.normalizeTehMarbuta mapTehMarbuta
              (stageIf o.normalizeAlefMaqsura mapAlefMaqsura
                (stageIf o.normalizeAlef mapAlefVariants
                  (stageIf o.removeDiacritics removeDiacriticsL
                    (stageIf o.applyUthmaniHeuristics
                      (fun r => mapHamzaAboveToAlef
                        (hamzaStandaloneBeforeAlefDrop
                          (hamzaAboveBeforeAlefDrop (hamzaAboveAfterYa
                            (hamzaAboveToWaw (mapSuperAlef r))))))
                      (stripSectionMarkers
                        (stageIf o.stripBidiControls stripBidi
                          (stageIf o.normalizePresentationForms
                            (fun r => nfkcCompose (nfkc r)) s))))))))))))

/-- `normalizeArabic(text, options)` with a partial options object. -/
def normalizeArabicP (s : List Char) (p : NormOptionsPartial) : List Char :=
  normalizeArabicO (resolveOptions p) s

/-- `normalizeArabic(text)` — no options argument, i.e. `{}`. -/
def normalizeArabic (s : List Char) : List Char := normalizeArabicP s {}

/-- The validator's `normalizeFabrication(text)` calls
`normalizeArabic(text, { stripHamza: true })`.  `stripHamza` matches no
field of `NormalizationOptions` (src/src/types.ts lines 102-125), so
under the spread merge the object literal contributes no override: every
consulted option keeps its default.  The literal is therefore modelled
as the empty partial-options record. -/
def fabricationOverrides : NormOptionsPartial := {}

def normalizeFabrication (s : List Char) : List Char :=
  normalizeArabicP s fabricationOverrides

/-! ## Strings: join, split, substring search -/

/-- `Array.prototype.join(' ')`. -/
def joinWords : List (List Char) → List Char
  | [] => []
  | [w] => w
  | w :: ws => w ++ ' ' :: joinWords ws

/-- `split(/\s+/).filter(Boolean)`: the maximal non-whitespace runs.
`cur` accumulates the current word reversed. -/
def splitWordsAux (cur : List Char) : List Char → List (List Char)
  | [] => if cur.isEmpty then [] else [cur.reverse]
  | c :: t =>
    if isJsSpace c then
      if cur.isEmpty then splitWordsAux [] t
      else cur.reverse :: splitWordsAux [] t
    else splitWordsAux (c :: cur) t

def splitWords (s : List Char) : List (List Char) := splitWordsAux [] s

/-- Does `s` start with `pre`? -/
def startsWithL : List Char → List Char → Bool
  | [], _ => true
  | _ :: _, [] => false
  | a :: as, b :: bs => decide (a = b) && startsWithL as bs

/-- `hay.includes(needle)` — substring containment. -/
def strIncludes (hay needle : List Char) : Bool :=
  startsWithL needle hay ||
    match hay with
    | [] => false
    | _ :: t => strIncludes t needle

/-! ## Data model (src/src/types.ts, multi-riwaya revision) -/

structure QuranVerse where
  id : Nat
  surah : Nat
  ayah : Nat
  text : List Char
  textSimple : List Char
  page : Nat
  juz : Nat
deriving DecidableEq

structure QuranSurah where
  number : Nat
  name : List Char
  englishName : List Char
  versesCount : Nat
deriving DecidableEq

/-- Rows of a riwaya data file (`{id, surah, ayah, text}`). -/
structure MinimalVerse where
  id : Nat
  surah : Nat
  ayah : Nat
  text : List Char
deriving DecidableEq

inductive MatchType where
  | exact
  | normalized
  | none
deriving DecidableEq

structure RiwayaMatch where
  riwaya : String
  matchType : MatchType
  verse : QuranVerse
  riwayaText : List Char
deriving DecidableEq

structure ValidationResult where
  isValid : Bool
  matchType : MatchType
  matchedVerse : Option QuranVerse := Option.none
  reference : Option (List Char) := Option.none
  normalizedInput : Option (List Char) := Option.none
  expectedNormalized : Option (List Char) := Option.none
  mismatchIndex : Option Int := Option.none
  suggestions : Option (List (QuranVerse × List Char)) := Option.none
  riwayaMatches : Option (List RiwayaMatch) := Option.none
deriving DecidableEq

structure WordAnalysis where
  word : List Char
  isFabricated : Bool
deriving DecidableEq

/-- Stats of a FabricationAnalysis.  The source stores
`fabricatedWords / totalWords` in a JavaScript number; the quotient is
modelled in ℚ (the claims are about the exact fraction). -/
structure FabricationStats where
  totalWords : Nat
  fabricatedWords : Nat
  fabricatedRatioQ : Rat
deriving DecidableEq

structure FabricationAnalysis where
  normalizedInput : List Char
  words : List WordAnalysis
  stats : FabricationStats
deriving DecidableEq

/-- The state a QuranValidator instance is constructed with: the bundled
Hafs verse list and, per loaded riwaya identifier, that riwaya's rows.
The JSON data files are not in the source tree, so they are parameters;
the spec's data-model section describes their shape.  Default options:
`maxSuggestions: 3`, `riwayat: ['hafs']`. -/
structure ValidatorSetup where
  verses : List QuranVerse
  surahs : List QuranSurah := []
  maxSuggestions : Nat := 3
  loadedRiwayat : List String := ["hafs"]
  riwayaData : String → List MinimalVerse := fun _ => []

/-- `this.multiRiwaya = this.loadedRiwayat.length > 1`. -/
def multiRiwaya (st : ValidatorSetup) : Bool := decide (1 < st.loadedRiwayat.length)

structure RiwayaVerseEntry where
  verse : QuranVerse
  riwayaId : String
  originalText : List Char
deriving DecidableEq

/-- The QuranVerse-compatible object built for a riwaya row
(`textSimple: '', page: 0, juz: 0`). -/
def toVerseRef (rv : MinimalVerse) : QuranVerse :=
  ⟨rv.id, rv.surah, rv.ayah, rv.text, [], 0, 0⟩

/-- All riwaya entries in constructor insertion order (per riwaya in
`loadedRiwayat` order, per row in data order).  Built only in
multi-riwaya mode, like `exactTextMap`/`normalizedRiwayaMap`. -/
def riwayaEntries (st : ValidatorSetup) : List RiwayaVerseEntry :=
  if multiRiwaya st then
    (st.loadedRiwayat.map (fun rid =>
      (st.riwayaData rid).map (fun rv => ⟨toVerseRef rv, rid, rv.text⟩))).flatten
  else []

/-- `exactTextMap.get(k)`: the entries whose raw text is `k`, in
insertion order (a JavaScript Map groups per key in push order). -/
def exactTextMapGet (st : ValidatorSetup) (k : List Char) : List RiwayaVerseEntry :=
  (riwayaEntries st).filter (fun e => decide (e.originalText = k))

/-- `normalizedRiwayaMap.get(k)`. -/
def normalizedRiwayaMapGet (st : ValidatorSetup) (k : List Char) : List RiwayaVerseEntry :=
  (riwayaEntries st).filter (fun e => decide (normalizeFabrication e.originalText = k))

/-- `normalizedVerseMap.get(k)` — Hafs base map, keyed by
`normalizeFabrication(verse.text)`. -/
def normalizedVerseMapGet (st : ValidatorSetup) (k : List Char) : List QuranVerse :=
  st.verses.filter (fun v => decide (normalizeFabrication v.text = k))

/-- `corpusTexts`: the normalized Hafs verses, then (multi-riwaya only)
the normalized non-hafs rows, joined with single spaces into
`this.normalizedCorpus`. -/
def normalizedCorpus (st : ValidatorSetup) : List Char :=
  joinWords (st.verses.map (fun v => normalizeFabrication v.text) ++
    (if multiRiwaya st then
      (st.loadedRiwayat.map (fun rid =>
        if rid = "hafs" then []
        else (st.riwayaData rid).map (fun rv => normalizeFabrication rv.text))).flatten
    else []))

/-- `findExactMatch`: first verse whose raw text equals the input. -/
def findExactMatch (st : ValidatorSetup) (txt : List Char) : Option QuranVerse :=
  st.verses.find? (fun v => decide (v.text = txt))

/-- Decimal digits of `n`, most significant first (fuel-based so the
kernel can evaluate it; `n + 1` iterations always suffice for division
by ten). -/
def natDigsF : Nat → Nat → List Char
  | 0, _ => []
  | _ + 1, 0 => []
  | f + 1, n => natDigsF f (n / 10) ++ [Char.ofNat (0x30 + n % 10)]

def natReprL (n : Nat) : List Char :=
  if n = 0 then ['0'] else natDigsF (n + 1) n

/-- The template string `"{surah}:{ayah}"`. -/
def refString (s a : Nat) : List Char :=
  natReprL s ++ ':' :: natReprL a

/-- `createResult`. -/
def createResult (v : QuranVerse) (mt : MatchType) (ni : List Char) : ValidationResult :=
  { isValid := true, matchType := mt, matchedVerse := some v,
    reference := some (refString v.surah v.ayah), normalizedInput := some ni }

/-- `noMatch`. -/
def noMatchResult (ni : List Char) : ValidationResult :=
  { isValid := false, matchType := MatchType.none, normalizedInput := some ni }

/-- `findMismatchIndex` with running index: first differing position,
else the shorter length when lengths differ, else -1. -/
def fmiAux : List Char → List Char → Nat → Int
  | a :: as, b :: bs, i => if a ≠ b then Int.ofNat i else fmiAux as bs (i + 1)
  | [], [], _ => -1
  | _, _, i => Int.ofNat i

def findMismatchIndex (s t : List Char) : Int := fmiAux s t 0

/-- `Array.prototype.sort` with the comparator of validateMultiRiwaya /
findRiwayaMatchesForRef (exact before non-exact, 0 otherwise).
ECMAScript sort is stable, and a stable sort under this two-block
comparator is exactly the partition: the exact entries in original
order followed by the rest in original order. -/
def sortExactFirst (l : List RiwayaMatch) : List RiwayaMatch :=
  l.filter (fun m => decide (m.matchType = MatchType.exact)) ++
    l.filter (fun m => decide (¬m.matchType = MatchType.exact))

/-- Step 2 of validateMultiRiwaya: append a normalized hit unless an
entry with the same (riwaya, surah, ayah) was already collected. -/
def dedupAdd (acc : List RiwayaMatch) (e : RiwayaVerseEntry) : List RiwayaMatch :=
  if acc.any (fun m => decide (m.riwaya = e.riwayaId ∧
      m.verse.surah = e.verse.surah ∧ m.verse.ayah = e.verse.ayah)) then acc
  else acc ++ [⟨e.riwayaId, MatchType.normalized, e.verse, e.originalText⟩]

/-- `uniqueVerses`: first verse per distinct "surah:ayah" key, in match
order (insertion order of the Map). -/
def dedupRefs (l : List RiwayaMatch) : List (List Char × QuranVerse) :=
  l.foldl (fun acc m =>
    let k := refString m.verse.surah m.verse.ayah
    if acc.any (fun p => decide (p.1 = k)) then acc
    else acc ++ [(k, m.verse)]) []

/-- `validateMultiRiwaya(trimmedText, normalizedInput, lookupKey)`.
The source tests `riwayaMatches.length === 0` before sorting; sorting
preserves emptiness, so the match on the sorted list is the same
branch. -/
def validateMultiRiwaya (st : ValidatorSetup) (trimmed ni lookupKey : List Char) :
    ValidationResult :=
  match sortExactFirst ((normalizedRiwayaMapGet st lookupKey).foldl dedupAdd
      ((exactTextMapGet st trimmed).map
        (fun e => ⟨e.riwayaId, MatchType.exact, e.verse, e.originalText⟩))) with
  | [] => noMatchResult ni
  | best :: rest =>
    { isValid := true, matchType := best.matchType,
      matchedVerse := some best.verse,
      reference := some (refString best.verse.surah best.verse.ayah),
      normalizedInput := some ni,
      riwayaMatches := some (best :: rest),
      suggestions :=
        if 1 < (dedupRefs (best :: rest)).length then
          some (((dedupRefs (best :: rest)).take st.maxSuggestions).map
            (fun p => (p.2, p.1)))
        else Option.none }

/-- `validate(text)`. -/
def validate (st : ValidatorSetup) (text : List Char) : ValidationResult :=
  let trimmed := jsTrim text
  let ni := normalizeArabic trimmed
  let lookupKey := normalizeFabrication trimmed
  if containsArabic trimmed = false then noMatchResult ni
  else if multiRiwaya st then validateMultiRiwaya st trimmed ni lookupKey
  else
    match findExactMatch st trimmed with
    | some v => createResult v MatchType.exact ni
    | Option.none =>
      match normalizedVerseMapGet st lookupKey with
      | [] => noMatchResult ni
      | primary :: rest =>
        if rest = [] then createResult primary MatchType.normalized ni
        else
          { createResult primary MatchType.normalized ni with
            suggestions := some (((primary :: rest).take st.maxSuggestions).map
              (fun v => (v, refString v.surah v.ayah))) }

/-- `getVerse(surah, ayah)`. -/
def getVerse (st : ValidatorSetup) (s a : Nat) : Option QuranVerse :=
  st.verses.find? (fun v => decide (v.surah = s ∧ v.ayah = a))

/-- The collecting loop of getVerseRange: push each verse, abort with
undefined at the first missing one. -/
def collectVerses (f : Nat → Option QuranVerse) : List Nat → Option (List QuranVerse)
  | [] => some []
  | ay :: t =>
    match f ay with
    | Option.none => Option.none
    | some v =>
      match collectVerses f t with
      | Option.none => Option.none
      | some vs => some (v :: vs)

/-- `getVerseRange(surah, startAyah, endAyah)`: undefined when
startAyah > endAyah or any ayah of the inclusive range is missing;
otherwise the verses with their texts joined by single spaces. -/
def getVerseRange (st : ValidatorSetup) (s a b : Nat) :
    Option (List Char × List Char × List QuranVerse) :=
  if b < a then Option.none
  else
    match collectVerses (fun ay => getVerse st s ay) (List.range' a (b + 1 - a)) with
    | Option.none => Option.none
    | some vs =>
      some (joinWords (vs.map (fun v => v.text)),
        joinWords (vs.map (fun v => v.textSimple)), vs)

/-- The reference regex `^(\d+):(\d+)(?:-(\d+))?$` with `parseInt` on the
captured digit groups.  Greedy digit runs are deterministic here because
neither ':' nor '-' is a digit. -/
def isAsciiDigit (c : Char) : Bool := decide (0x30 ≤ cv c ∧ cv c ≤ 0x39)

def natOfDigits (l : List Char) : Nat :=
  l.foldl (fun n c => n * 10 + (cv c - 0x30)) 0

def parseRef (r : List Char) : Option (Nat × Nat × Option Nat) :=
  let d1 := r.takeWhile isAsciiDigit
  match d1, r.drop d1.length with
  | [], _ => Option.none
  | _ :: _, ':' :: r2 =>
    let d2 := r2.takeWhile isAsciiDigit
    match d2, r2.drop d2.length with
    | [], _ => Option.none
    | _ :: _, [] => some (natOfDigits d1, natOfDigits d2, Option.none)
    | _ :: _, '-' :: r3 =>
      let d3 := r3.takeWhile isAsciiDigit
      match d3, r3.drop d3.length with
      | _ :: _, [] => some (natOfDigits d1, natOfDigits d2, some (natOfDigits d3))
      | _, _ => Option.none
    | _ :: _, _ => Option.none
  | _, _ => Option.none

/-- Resolution of a parsed reference to the expected text and the
matched verse: the single-verse branch when startAyah = endAyah, else
the range branch (`range.verses[0]` is the matched verse; the range is
nonempty whenever the lookup succeeds). -/
def resolveExpected (st : ValidatorSetup) (su a b : Nat) :
    Option (List Char × QuranVerse) :=
  if a = b then (getVerse st su a).map (fun v => (v.text, v))
  else
    (getVerseRange st su a b).map
      (fun r => (r.1, r.2.2.headD ⟨0, 0, 0, [], [], 0, 0⟩))

/-- `findRiwayaMatchesForRef(text, surah, ayah)`. -/
def findRiwayaMatchesForRef (st : ValidatorSetup) (text : List Char) (s a : Nat) :
    List RiwayaMatch :=
  let lookupKey := normalizeFabrication text
  sortExactFirst ((st.loadedRiwayat.map (fun rid =>
    match (st.riwayaData rid).find? (fun v => decide (v.surah = s ∧ v.ayah = a)) with
    | Option.none => []
    | some verse =>
      if text = verse.text then
        [⟨rid, MatchType.exact, toVerseRef verse, verse.text⟩]
      else if lookupKey = normalizeFabrication verse.text then
        [⟨rid, MatchType.normalized, toVerseRef verse, verse.text⟩]
      else [])).flatten)

/-- `validateAgainst(text, reference)`. -/
def validateAgainst (st : ValidatorSetup) (text ref : List Char) : ValidationResult :=
  let trimmed := jsTrim text
  let ni := normalizeArabic trimmed
  match parseRef ref with
  | Option.none => noMatchResult ni
  | some (su, a, eOpt) =>
    let b := eOpt.getD a
    match resolveExpected st su a b with
    | Option.none => noMatchResult ni
    | some (expectedText, mv) =>
      let en := normalizeArabic expectedText
      if trimmed = expectedText then
        { isValid := true, matchType := MatchType.exact, matchedVerse := some mv,
          reference := some ref, normalizedInput := some ni,
          expectedNormalized := some en,
          riwayaMatches :=
            if multiRiwaya st then some (findRiwayaMatchesForRef st trimmed su a)
            else Option.none }
      else
        let inputLookup := normalizeFabrication trimmed
        let expectedLookup := normalizeFabrication expectedText
        if inputLookup = expectedLookup then
          { isValid := true, matchType := MatchType.normalized,
            matchedVerse := some mv, reference := some ref,
            normalizedInput := some ni, expectedNormalized := some en,
            riwayaMatches :=
              if multiRiwaya st then some (findRiwayaMatchesForRef st trimmed su a)
              else Option.none }
        else
          match
            (if multiRiwaya st ∧ a = b then findRiwayaMatchesForRef st trimmed su a
             else []) with
          | bestMatch :: restRm =>
            { isValid := true, matchType := bestMatch.matchType,
              matchedVerse := some bestMatch.verse, reference := some ref,
              normalizedInput := some ni, expectedNormalized := some en,
              riwayaMatches := some (bestMatch :: restRm) }
          | [] =>
            { isValid := false, matchType := MatchType.none,
              reference := some ref, normalizedInput := some ni,
              expectedNormalized := some en,
              mismatchIndex := some (findMismatchIndex inputLookup expectedLookup) }

/-! ## Fabrication analyzer -/

/-- The binary search of analyzeFabrication: `lo = 1`, `hi` = remaining
words, `best = 0`; probe `mid = (lo+hi)/2`, on containment record and go
right, otherwise go left.  When `mid = 0` the JavaScript loop would set
`hi = -1` and exit with `best`, which the truncated-subtraction branch
mirrors. -/
def fabSearchF (p : Nat → Bool) : Nat → Nat → Nat → Nat → Nat
  | 0, _, _, best => best
  | f + 1, lo, hi, best =>
    if lo ≤ hi then
      let mid := (lo + hi) / 2
      if p mid then fabSearchF p f (mid + 1) hi mid
      else fabSearchF p f lo (mid - 1) best
    else best

/-- The loop runs at most `hi + 1 - lo` iterations (the interval shrinks
every round; when `mid = 0` the JavaScript loop would set `hi = -1`, and
here `hi` becomes `0 - 1 = 0 < lo`), so that much fuel is exact. -/
def fabSearch (p : Nat → Bool) (lo hi best : Nat) : Nat :=
  fabSearchF p (hi + 1 - lo) lo hi best

/-- The containment probe at scan position `i` and candidate length `L`:
`this.normalizedCorpus.includes(fabricationWords.slice(i, i+L).join(' '))`. -/
def fabProbe (corpus : List Char) (ws : List (List Char)) (i L : Nat) : Bool :=
  strIncludes corpus (joinWords ((ws.drop i).take L))

/-- The binary search at scan position `i`. -/
def fabBest (corpus : List Char) (ws : List (List Char)) (i : Nat) : Nat :=
  fabSearch (fabProbe corpus ws i) 1 (ws.length - i) 0

/-- The scan loop of analyzeFabrication: greedy longest-match from the
current position, marking the display words `words[i..i+best)` as not
fabricated when `best > 0`, else the single word as fabricated. -/
def fabScanF (corpus : List Char) (dws ws : List (List Char)) :
    Nat → Nat → List WordAnalysis
  | 0, _ => []
  | f + 1, i =>
    if i < ws.length then
      if 0 < fabBest corpus ws i then
        ((List.range (fabBest corpus ws i)).map
          (fun k => ⟨dws.getD (i + k) [], false⟩)) ++
          fabScanF corpus dws ws f (i + fabBest corpus ws i)
      else ⟨dws.getD i [], true⟩ :: fabScanF corpus dws ws f (i + 1)
    else []

/-- Every loop round advances the scan position by at least one, so
`ws.length - i` rounds of fuel are exact. -/
def fabScan (corpus : List Char) (dws ws : List (List Char)) (i : Nat) :
    List WordAnalysis :=
  fabScanF corpus dws ws (ws.length - i) i

/-- The scan-result list of analyzeFabrication (its local `results`):
the scan over the aggressively-normalized words, displaying the
default-normalized words. -/
def fabResults (st : ValidatorSetup) (text : List Char) : List WordAnalysis :=
  fabScan (normalizedCorpus st) (splitWords (normalizeArabic text))
    (splitWords (normalizeFabrication text)) 0

/-- `analyzeFabrication(text)`.  The source binds
`words = normalizedInput.split(/\s+/).filter(Boolean)` and
`fabricationWords` likewise from the aggressive normalization in
locals; they appear inline here. -/
def analyzeFabrication (st : ValidatorSetup) (text : List Char) : FabricationAnalysis :=
  if splitWords (normalizeArabic text) = [] then
    ⟨normalizeArabic text, [], ⟨0, 0, 0⟩⟩
  else
    ⟨normalizeArabic text, fabResults st text,
      ⟨(fabResults st text).length,
        ((fabResults st text).filter (fun w => w.isFabricated)).length,
        if 0 < (fabResults st text).length then
          (((fabResults st text).filter (fun w => w.isFabricated)).length : Rat) /
            ((fabResults st text).length : Rat)
        else 0⟩⟩

/-! ## General helper lemmas -/

theorem mem_of_mem_jsTrim {c : Char} {s : List Char} (h : c ∈ jsTrim s) : c ∈ s := by
  unfold jsTrim at h
  rw [List.mem_reverse] at h
  have h2 := (List.dropWhile_sublist isJsSpace).mem h
  rw [List.mem_reverse] at h2
  exact (List.dropWhile_sublist isJsSpace).mem h2

theorem containsArabic_jsTrim_false {s : List Char}
    (h : ∀ c ∈ s, isArabicRange c = false) : containsArabic (jsTrim s) = false := by
  unfold containsArabic
  rw [List.any_eq_false]
  intro c hc
  simp [h c (mem_of_mem_jsTrim hc)]

/-! ## Claims -/

/-- C2.  The specification contracts that `normalizeArabic` is
idempotent for fixed options; the code is not.  At the failing input
ءٔ (U+0621 standalone hamza followed by U+0654 combining hamza above),
the first pass keeps the standalone hamza — the lookahead of the
ء-before-alef rule sees only the combining mark — and then converts the
combining mark to a plain alef, producing ءا; a second pass now finds
the standalone hamza directly before an alef and deletes it, producing
ا.  The staging of hamza repair (ء-removal running before the
hamza-above-to-alef conversion can create a new ء+ا context) makes the
second application differ from the first. -/
theorem normalizeArabic_not_idempotent :
    normalizeArabic [chHamza, chHamzaAbove] = [chHamza, chAlef] ∧
    normalizeArabic (normalizeArabic [chHamza, chHamzaAbove]) = [chAlef] ∧
    normalizeArabic (normalizeArabic [chHamza, chHamzaAbove]) ≠
      normalizeArabic [chHamza, chHamzaAbove] := by
  refine ⟨by decide, by decide, by decide⟩

/-- C9.  `normalizeFabrication` passes `{ stripHamza: true }` to
`normalizeArabic`; `stripHamza` is not a field of NormalizationOptions
and is never consulted inside `normalizeArabic`, so the merged options
equal the defaults and the aggressive lookup normalization coincides
with the default display normalization on every string. -/
theorem normalizeFabrication_eq_default (s : List Char) :
    normalizeFabrication s = normalizeArabicO defaultNormOptions s ∧
    resolveOptions fabricationOverrides = defaultNormOptions ∧
    normalizeFabrication s = normalizeArabic s :=
  ⟨rfl, rfl, rfl⟩

/-- C7.  Any input with no character of the Arabic Unicode ranges — the
empty string included — is rejected immediately: `validate` returns
isValid false, matchType none, and normalizedInput set to the
normalization of the trimmed input, regardless of the corpus. -/
theorem validate_nonArabic (st : ValidatorSetup) (s : List Char)
    (h : ∀ c ∈ s, isArabicRange c = false) :
    validate st s = noMatchResult (normalizeArabic (jsTrim s)) ∧
    (validate st s).isValid = false ∧
    (validate st s).matchType = MatchType.none ∧
    (validate st s).normalizedInput = some (normalizeArabic (jsTrim s)) := by
  have hca := containsArabic_jsTrim_false h
  have hv : validate st s = noMatchResult (normalizeArabic (jsTrim s)) := by
    unfold validate
    simp [hca]
  exact ⟨hv, by rw [hv]; rfl, by rw [hv]; rfl, by rw [hv]; rfl⟩

theorem validate_nonArabic_witness :
    (∀ c ∈ ['h', 'i'], isArabicRange c = false) ∧
    validate { verses := [] } ['h', 'i'] =
      noMatchResult (normalizeArabic (jsTrim ['h', 'i'])) :=
  ⟨by decide, (validate_nonArabic { verses := [] } ['h', 'i'] (by decide)).1⟩

theorem collectVerses_eq_none (f : Nat → Option QuranVerse) (l : List Nat)
    (x : Nat) (hx : x ∈ l) (hf : f x = Option.none) :
    collectVerses f l = Option.none := by
  induction l with
  | nil => cases hx
  | cons a t ih =>
    rcases List.mem_cons.mp hx with h | h
    · subst h; simp [collectVerses, hf]
    · unfold collectVerses
      cases hfa : f a with
      | none => rfl
      | some v => rw [ih h]

/-- C5.  A malformed reference string, a (surah, ayah) address absent
from the corpus, an inverted range, or a range with a missing ayah all
make `validateAgainst` return the no-match result (isValid false,
matchType none); failure is an ordinary return value — the embedded
functions are total, mirroring that no branch of the source throws. -/
theorem validateAgainst_invalid_ref (st : ValidatorSetup) (text ref : List Char)
    (h : parseRef ref = Option.none ∨
      ∃ su a eo, parseRef ref = some (su, a, eo) ∧
        ((eo.getD a = a ∧ getVerse st su a = Option.none) ∨
         (¬eo.getD a = a ∧ eo.getD a < a) ∨
         (¬eo.getD a = a ∧
           ∃ ay, a ≤ ay ∧ ay ≤ eo.getD a ∧ getVerse st su ay = Option.none))) :
    validateAgainst st text ref = noMatchResult (normalizeArabic (jsTrim text)) ∧
    (validateAgainst st text ref).isValid = false ∧
    (validateAgainst st text ref).matchType = MatchType.none := by
  have hmain : validateAgainst st text ref =
      noMatchResult (normalizeArabic (jsTrim text)) := by
    rcases h with hp | ⟨su, a, eo, hp, hcase⟩
    · unfold validateAgainst
      rw [hp]
    · have hres : resolveExpected st su a (eo.getD a) = Option.none := by
        rcases hcase with ⟨hb, hg⟩ | ⟨hb, hlt⟩ | ⟨hb, ay, h1, h2, hg⟩
        · unfold resolveExpected
          rw [if_pos hb.symm, hg]
          rfl
        · unfold resolveExpected
          rw [if_neg (fun hh => hb hh.symm)]
          unfold getVerseRange
          rw [if_pos hlt]
          rfl
        · unfold resolveExpected
          rw [if_neg (fun hh => hb hh.symm)]
          unfold getVerseRange
          by_cases hlt : eo.getD a < a
          · rw [if_pos hlt]; rfl
          · rw [if_neg hlt]
            have hmem : ay ∈ List.range' a (eo.getD a + 1 - a) := by
              rw [List.mem_range'_1]
              omega
            rw [collectVerses_eq_none _ _ ay hmem hg]
            rfl
      unfold validateAgainst
      rw [hp]
      simp only
      rw [hres]
  exact ⟨hmain, by rw [hmain]; rfl, by rw [hmain]; rfl⟩

theorem validateAgainst_invalid_ref_witness :
    parseRef ('a' :: 'b' :: 'c' :: []) = Option.none ∧
    (validateAgainst { verses := [] } ['x'] ['a', 'b', 'c']).isValid = false ∧
    (validateAgainst { verses := [] } ['x'] ['a', 'b', 'c']).matchType =
      MatchType.none :=
  ⟨by decide,
    (validateAgainst_invalid_ref { verses := [] } ['x'] ['a', 'b', 'c']
      (Or.inl (by decide))).2.1,
    (validateAgainst_invalid_ref { verses := [] } ['x'] ['a', 'b', 'c']
      (Or.inl (by decide))).2.2⟩

/-- C1 (amended).  In single-variant mode with default options,
`validate` on the raw text of a corpus verse `v` (the corpus data is
spec-modelled: verse texts are trimmed and contain Arabic characters)
returns matchType exact with the reference of the FIRST corpus verse
whose raw text equals `v.text`; that verse is `v` itself whenever no
other verse shares its raw text.  The original claim promised the
reference of `v` unconditionally, which fails when the corpus repeats a
raw text (the Quran does, e.g. the Ar-Rahman refrain). -/
theorem validate_corpus_text_exact (st : ValidatorSetup) (v : QuranVerse)
    (hs : st.loadedRiwayat = ["hafs"])
    (hv : v ∈ st.verses) (ht : jsTrim v.text = v.text)
    (ha : containsArabic v.text = true) :
    ∃ w, findExactMatch st v.text = some w ∧ w ∈ st.verses ∧ w.text = v.text ∧
      validate st v.text = createResult w MatchType.exact (normalizeArabic v.text) ∧
      (validate st v.text).isValid = true ∧
      (validate st v.text).matchType = MatchType.exact ∧
      (validate st v.text).reference = some (refString w.surah w.ayah) ∧
      ((∀ u ∈ st.verses, u.text = v.text → u = v) →
        (validate st v.text).reference = some (refString v.surah v.ayah)) := by
  have hmr : multiRiwaya st = false := by
    unfold multiRiwaya
    rw [hs]
    rfl
  obtain ⟨w, hw⟩ : ∃ w, findExactMatch st v.text = some w := by
    cases hfe : findExactMatch st v.text with
    | some w => exact ⟨w, rfl⟩
    | none =>
      exfalso
      have := List.find?_eq_none.mp hfe v hv
      simp at this
  have hwmem : w ∈ st.verses := List.mem_of_find?_eq_some hw
  have hwtext : w.text = v.text := by
    have := List.find?_some hw
    simpa using this
  have hval : validate st v.text =
      createResult w MatchType.exact (normalizeArabic v.text) := by
    unfold validate
    rw [ht]
    simp only [ha, hmr, hw, Bool.true_eq_false, Bool.false_eq_true, if_false,
      if_true, ite_false, ite_true]
  refine ⟨w, hw, hwmem, hwtext, hval, by rw [hval]; rfl, by rw [hval]; rfl,
    by rw [hval]; rfl, ?_⟩
  intro huniq
  have hwv : w = v := huniq w hwmem hwtext
  rw [hval, hwv]
  rfl

/-- A two-verse corpus with the same raw text at 55:13 and 55:16, as in
the real corpus (the Ar-Rahman refrain repeats byte-identically). -/
def dupText : List Char := "فَبِأَيِّ آلَاءِ رَبِّكُمَا تُكَذِّبَانِ".data

def dupV1 : QuranVerse := ⟨1, 55, 13, dupText, [], 0, 0⟩

def dupV2 : QuranVerse := ⟨2, 55, 16, dupText, [], 0, 0⟩

def dupSetup : ValidatorSetup := { verses := [dupV1, dupV2] }

/-- C1 (counterexample).  For the corpus verse `dupV2 = (55,16)`,
`validate(dupV2.text)` reports the reference "55:13" of the first verse
carrying that text, not "55:16": the claimed round trip
`validate(v.text).reference = "{v.surah}:{v.ayah}"` fails at `v = dupV2`. -/
theorem validate_corpus_text_exact_cex :
    dupV2 ∈ dupSetup.verses ∧
    (validate dupSetup dupV2.text).matchType = MatchType.exact ∧
    (validate dupSetup dupV2.text).reference = some (refString 55 13) ∧
    (validate dupSetup dupV2.text).reference ≠
      some (refString dupV2.surah dupV2.ayah) :=
  ⟨by decide, by decide, by decide, by decide⟩

def c1wVerse : QuranVerse := ⟨1, 1, 1, "بِسْمِ اللَّهِ".data, [], 0, 0⟩

def c1wSetup : ValidatorSetup := { verses := [c1wVerse] }

theorem validate_corpus_text_exact_witness :
    (jsTrim c1wVerse.text = c1wVerse.text ∧ containsArabic c1wVerse.text = true) ∧
    (validate c1wSetup c1wVerse.text).matchType = MatchType.exact ∧
    (validate c1wSetup c1wVerse.text).reference = some (refString 1 1) := by
  obtain ⟨w, hfind, hmem, htext, heq, hvalid, hmt, href, huniq⟩ :=
    validate_corpus_text_exact c1wSetup c1wVerse rfl (by decide) (by decide)
      (by decide)
  exact ⟨⟨by decide, by decide⟩, hmt, huniq (by decide)⟩

theorem fmiAux_spec (s : List Char) : ∀ (t : List Char) (i : Nat),
    (s = t → fmiAux s t i = -1) ∧
    (s ≠ t → ∃ k : Nat, fmiAux s t i = Int.ofNat (i + k) ∧
      s.take k = t.take k ∧
      ((∃ x y, s.get? k = some x ∧ t.get? k = some y ∧ x ≠ y) ∨
       (k = min s.length t.length ∧ s.length ≠ t.length))) := by
  induction s with
  | nil =>
    intro t i
    cases t with
    | nil => exact ⟨fun _ => rfl, fun hne => absurd rfl hne⟩
    | cons b bs =>
      refine ⟨?_, ?_⟩
      · intro h
        cases h
      · intro _
        exact ⟨0, rfl, rfl, Or.inr ⟨by simp, by simp⟩⟩
  | cons a as ih =>
    intro t i
    cases t with
    | nil =>
      refine ⟨?_, ?_⟩
      · intro h
        cases h
      · intro _
        exact ⟨0, rfl, rfl, Or.inr ⟨by simp, by simp⟩⟩
    | cons b bs =>
      by_cases hab : a = b
      · subst hab
        refine ⟨fun h => ?_, fun hne => ?_⟩
        · have has : as = bs := by injection h
          have := (ih bs (i + 1)).1 has
          simpa [fmiAux] using this
        · have hasbs : as ≠ bs := by
            intro h
            exact hne (by rw [h])
          obtain ⟨k, hk, htake, hdisj⟩ := (ih bs (i + 1)).2 hasbs
          refine ⟨k + 1, ?_, ?_, ?_⟩
          · have : i + 1 + k = i + (k + 1) := by omega
            simpa [fmiAux, this] using hk
          · simpa [List.take_succ_cons] using htake
          · rcases hdisj with ⟨x, y, hx, hy, hxy⟩ | ⟨hmin, hlen⟩
            · exact Or.inl ⟨x, y, by simpa using hx, by simpa using hy, hxy⟩
            · refine Or.inr ⟨?_, ?_⟩
              · simp only [List.length_cons]
                omega
              · simpa using hlen
      · refine ⟨fun h => ?_, fun _ => ⟨0, ?_, rfl, Or.inl ⟨a, b, rfl, rfl, hab⟩⟩⟩
        · exact absurd (by injection h) hab
        · simp [fmiAux, hab]

/-- C6.  When `validateAgainst` resolves its reference but finds neither
an exact nor a normalized match (and, in multi-riwaya mode, no riwaya
match for the cited address), the returned mismatchIndex is
`findMismatchIndex` of the two aggressively-normalized strings — and
that function returns the first index at which its arguments differ,
the shorter length when one is a strict prefix of the other
(`k = min |s| |t|` with differing lengths), and -1 on identical
strings. -/
theorem validateAgainst_mismatch_index (st : ValidatorSetup)
    (text ref expTxt : List Char) (mv : QuranVerse) (su a : Nat) (eo : Option Nat)
    (hp : parseRef ref = some (su, a, eo))
    (hr : resolveExpected st su a (eo.getD a) = some (expTxt, mv))
    (hne : jsTrim text ≠ expTxt)
    (hnl : normalizeFabrication (jsTrim text) ≠ normalizeFabrication expTxt)
    (hmr : (if multiRiwaya st = true ∧ a = eo.getD a then
        findRiwayaMatchesForRef st (jsTrim text) su a else []) = []) :
    (validateAgainst st text ref).isValid = false ∧
    (validateAgainst st text ref).matchType = MatchType.none ∧
    (validateAgainst st text ref).mismatchIndex =
      some (findMismatchIndex (normalizeFabrication (jsTrim text))
        (normalizeFabrication expTxt)) ∧
    (∀ u : List Char, findMismatchIndex u u = -1) ∧
    (∀ s t : List Char, s ≠ t → ∃ k : Nat,
      findMismatchIndex s t = Int.ofNat k ∧ s.take k = t.take k ∧
      ((∃ x y, s.get? k = some x ∧ t.get? k = some y ∧ x ≠ y) ∨
       (k = min s.length t.length ∧ s.length ≠ t.length))) := by
  have hmain : validateAgainst st text ref =
      { isValid := false, matchType := MatchType.none, reference := some ref,
        normalizedInput := some (normalizeArabic (jsTrim text)),
        expectedNormalized := some (normalizeArabic expTxt),
        mismatchIndex := some (findMismatchIndex
          (normalizeFabrication (jsTrim text)) (normalizeFabrication expTxt)) } := by
    unfold validateAgainst
    rw [hp]
    simp only
    rw [hr]
    simp only
    rw [if_neg hne, if_neg hnl, hmr]
  refine ⟨by rw [hmain], by rw [hmain], by rw [hmain], ?_, ?_⟩
  · intro u
    exact (fmiAux_spec u u 0).1 rfl
  · intro s t hst
    obtain ⟨k, hk, htake, hdisj⟩ := (fmiAux_spec s t 0).2 hst
    exact ⟨k, by simpa [findMismatchIndex] using hk, htake, hdisj⟩

def c6Verse : QuranVerse := ⟨1, 1, 1, "بِسْمِ اللَّهِ".data, [], 0, 0⟩

def c6Setup : ValidatorSetup := { verses := [c6Verse] }

theorem validateAgainst_mismatch_index_witness :
    parseRef "1:1".data = some (1, 1, Option.none) ∧
    (validateAgainst c6Setup "بسم".data "1:1".data).mismatchIndex =
      some (Int.ofNat 3) := by
  refine ⟨by decide, ?_⟩
  have h := validateAgainst_mismatch_index c6Setup "بسم".data "1:1".data
    c6Verse.text c6Verse 1 1 Option.none (by decide) (by decide) (by decide)
    (by decide) (by decide)
  rw [h.2.2.1]
  decide

theorem mem_sortExactFirst {m : RiwayaMatch} {l : List RiwayaMatch}
    (h : m ∈ sortExactFirst l) : m ∈ l := by
  unfold sortExactFirst at h
  rcases List.mem_append.mp h with h | h
  · exact (List.mem_filter.mp h).1
  · exact (List.mem_filter.mp h).1

theorem mem_foldl_dedupAdd {m : RiwayaMatch} :
    ∀ (l : List RiwayaVerseEntry) (acc : List RiwayaMatch),
      m ∈ l.foldl dedupAdd acc → m ∈ acc ∨ m.matchType = MatchType.normalized := by
  intro l
  induction l with
  | nil => intro acc h; exact Or.inl h
  | cons e t ih =>
    intro acc h
    rcases ih (dedupAdd acc e) h with h2 | h2
    · unfold dedupAdd at h2
      by_cases hc : acc.any (fun mm => decide (mm.riwaya = e.riwayaId ∧
          mm.verse.surah = e.verse.surah ∧ mm.verse.ayah = e.verse.ayah)) = true
      · rw [if_pos hc] at h2
        exact Or.inl h2
      · rw [if_neg hc] at h2
        rcases List.mem_append.mp h2 with h3 | h3
        · exact Or.inl h3
        · right
          have : m = ⟨e.riwayaId, MatchType.normalized, e.verse, e.originalText⟩ := by
            simpa using h3
          rw [this]
    · exact Or.inr h2

theorem multiRiwaya_match_tag {st : ValidatorSetup} {trimmed lk : List Char}
    {m : RiwayaMatch}
    (h : m ∈ (normalizedRiwayaMapGet st lk).foldl dedupAdd
      ((exactTextMapGet st trimmed).map
        (fun e => ⟨e.riwayaId, MatchType.exact, e.verse, e.originalText⟩))) :
    m.matchType ≠ MatchType.none := by
  rcases mem_foldl_dedupAdd _ _ h with h2 | h2
  · obtain ⟨e, _, he⟩ := List.mem_map.mp h2
    rw [← he]
    intro hc
    cases hc
  · rw [h2]
    intro hc
    cases hc

theorem mem_findRiwaya_tag {st : ValidatorSetup} {text : List Char} {s a : Nat}
    {m : RiwayaMatch} (hm : m ∈ findRiwayaMatchesForRef st text s a) :
    m.matchType ≠ MatchType.none := by
  unfold findRiwayaMatchesForRef at hm
  have hm2 := mem_sortExactFirst hm
  obtain ⟨l, hl, hml⟩ := List.mem_flatten.mp hm2
  obtain ⟨rid, _, hrid⟩ := List.mem_map.mp hl
  subst hrid
  revert hml
  cases (st.riwayaData rid).find? (fun v => decide (v.surah = s ∧ v.ayah = a)) with
  | none => intro hml; cases hml
  | some verse =>
    simp only
    by_cases h1 : text = verse.text
    · rw [if_pos h1]
      intro hml
      have : m = ⟨rid, MatchType.exact, toVerseRef verse, verse.text⟩ := by
        simpa using hml
      rw [this]
      intro hc
      cases hc
    · rw [if_neg h1]
      by_cases h2 : normalizeFabrication text = normalizeFabrication verse.text
      · rw [if_pos h2]
        intro hml
        have : m = ⟨rid, MatchType.normalized, toVerseRef verse, verse.text⟩ := by
          simpa using hml
        rw [this]
        intro hc
        cases hc
      · rw [if_neg h2]
        intro hml
        cases hml

theorem tag_of_if_cons {c : Prop} [Decidable c] {L : List RiwayaMatch}
    {m : RiwayaMatch} {rest : List RiwayaMatch}
    (h : (if c then L else []) = m :: rest)
    (hL : ∀ x ∈ L, x.matchType ≠ MatchType.none) :
    m.matchType ≠ MatchType.none := by
  by_cases hc : c
  · rw [if_pos hc] at h
    exact hL m (h ▸ List.mem_cons_self _ _)
  · rw [if_neg hc] at h
    cases h

theorem validateMultiRiwaya_valid_iff (st : ValidatorSetup)
    (trimmed ni lk : List Char) :
    ((validateMultiRiwaya st trimmed ni lk).isValid = true ↔
      (validateMultiRiwaya st trimmed ni lk).matchType ≠ MatchType.none) := by
  unfold validateMultiRiwaya
  split
  · simp [noMatchResult]
  · rename_i best rest heq
    simp only
    constructor
    · intro _
      have hbm : best ∈ sortExactFirst ((normalizedRiwayaMapGet st lk).foldl dedupAdd
          ((exactTextMapGet st trimmed).map
            (fun e => ⟨e.riwayaId, MatchType.exact, e.verse, e.originalText⟩))) := by
        rw [heq]
        exact List.mem_cons_self _ _
      exact multiRiwaya_match_tag (mem_sortExactFirst hbm)
    · intro _
      trivial

/-- C10.  Every ValidationResult produced by `validate` or
`validateAgainst` satisfies isValid = (matchType ≠ none): a result
tagged exact or normalized always carries isValid true, and a none
result always carries isValid false, on every input, corpus and riwaya
configuration. -/
theorem result_valid_iff_match (st : ValidatorSetup) (text ref : List Char) :
    ((validate st text).isValid = true ↔
      (validate st text).matchType ≠ MatchType.none) ∧
    ((validateAgainst st text ref).isValid = true ↔
      (validateAgainst st text ref).matchType ≠ MatchType.none) := by
  constructor
  · unfold validate
    simp only
    split
    · simp [noMatchResult]
    · split
      · exact validateMultiRiwaya_valid_iff st _ _ _
      · split
        · simp [createResult]
        · split
          · simp [noMatchResult]
          · split
            · simp [createResult]
            · simp [createResult]
  · unfold validateAgainst
    simp only
    split
    · simp [noMatchResult]
    · split
      · simp [noMatchResult]
      · split
        · simp
        · split
          · simp
          · split
            · rename_i bestMatch restRm heq
              simp only
              constructor
              · intro _
                exact tag_of_if_cons heq (fun x hx => mem_findRiwaya_tag hx)
              · intro _
                trivial
            · simp

-- Structure-projection rewriting lemmas (whnf of a projection would
-- keep reducing into the field term, so rewriting must be syntactic).
theorem fa_words (a : List Char) (b : List WordAnalysis) (c : FabricationStats) :
    (FabricationAnalysis.mk a b c).words = b := rfl

theorem fa_stats (a : List Char) (b : List WordAnalysis) (c : FabricationStats) :
    (FabricationAnalysis.mk a b c).stats = c := rfl

theorem fs_total (a b : Nat) (c : Rat) : (FabricationStats.mk a b c).totalWords = a := rfl

theorem fs_fab (a b : Nat) (c : Rat) :
    (FabricationStats.mk a b c).fabricatedWords = b := rfl

theorem fs_ratio (a b : Nat) (c : Rat) :
    (FabricationStats.mk a b c).fabricatedRatioQ = c := rfl

theorem fabSearchF_le (p : Nat → Bool) (N : Nat) :
    ∀ (f lo hi best : Nat), hi ≤ N → best ≤ N →
      fabSearchF p f lo hi best ≤ N := by
  intro f
  induction f with
  | zero => intro lo hi best _ hb; exact hb
  | succ f ih =>
    intro lo hi best hh hb
    unfold fabSearchF
    by_cases hlh : lo ≤ hi
    · rw [if_pos hlh]
      simp only
      by_cases hp : p ((lo + hi) / 2) = true
      · rw [if_pos hp]
        exact ih _ _ _ hh (by omega)
      · rw [if_neg hp]
        exact ih _ _ _ (by omega) hb
    · rw [if_neg hlh]
      exact hb

theorem fabBest_le (corpus : List Char) (ws : List (List Char)) (i : Nat) :
    fabBest corpus ws i ≤ ws.length - i :=
  fabSearchF_le _ _ _ _ _ _ (Nat.le_refl _) (Nat.zero_le _)

theorem fabScanF_length (corpus : List Char) (dws ws : List (List Char)) :
    ∀ (f i : Nat), ws.length - i ≤ f →
      (fabScanF corpus dws ws f i).length = ws.length - i := by
  intro f
  induction f with
  | zero =>
    intro i hf
    simp only [fabScanF, List.length_nil]
    omega
  | succ f ih =>
    intro i hf
    unfold fabScanF
    by_cases hi : i < ws.length
    · rw [if_pos hi]
      have hble := fabBest_le corpus ws i
      by_cases hb : 0 < fabBest corpus ws i
      · rw [if_pos hb]
        rw [List.length_append, List.length_map, List.length_range,
          ih (i + fabBest corpus ws i) (by omega)]
        omega
      · rw [if_neg hb]
        rw [List.length_cons, ih (i + 1) (by omega)]
        omega
    · rw [if_neg hi]
      simp only [List.length_nil]
      omega

/-- C4.  `analyzeFabrication` yields exactly one WordAnalysis entry per
whitespace-delimited word of the normalized input, with
totalWords = the number of entries = the number of words,
fabricatedWords = the count of entries marked fabricated, and
fabricatedRatio = fabricatedWords/totalWords (0 when totalWords is 0). -/
theorem analyzeFabrication_partition (st : ValidatorSetup) (text : List Char) :
    (analyzeFabrication st text).words.length =
      (splitWords (normalizeArabic text)).length ∧
    (analyzeFabrication st text).stats.totalWords =
      (analyzeFabrication st text).words.length ∧
    (analyzeFabrication st text).stats.fabricatedWords =
      ((analyzeFabrication st text).words.filter (fun w => w.isFabricated)).length ∧
    (analyzeFabrication st text).stats.fabricatedRatioQ =
      (if (analyzeFabrication st text).stats.totalWords = 0 then 0
       else ((analyzeFabrication st text).stats.fabricatedWords : Rat) /
         ((analyzeFabrication st text).stats.totalWords : Rat)) := by
  have hfab : normalizeFabrication text = normalizeArabic text := rfl
  have hlen : (fabResults st text).length =
      (splitWords (normalizeArabic text)).length := by
    unfold fabResults fabScan
    rw [fabScanF_length _ _ _ _ 0 (by omega)]
    rw [hfab]
    omega
  by_cases hsplit : splitWords (normalizeArabic text) = []
  · have hA : analyzeFabrication st text =
        ⟨normalizeArabic text, [], ⟨0, 0, 0⟩⟩ := by
      unfold analyzeFabrication
      rw [if_pos hsplit]
    rw [hA, fa_words, fa_stats, fs_total, fs_fab, fs_ratio, hsplit]
    refine ⟨rfl, rfl, rfl, ?_⟩
    rw [if_pos rfl]
  · have hpos : 0 < (fabResults st text).length := by
      rw [hlen]
      cases hsp : splitWords (normalizeArabic text) with
      | nil => exact absurd hsp hsplit
      | cons a t => simp
    have hA : analyzeFabrication st text =
        ⟨normalizeArabic text, fabResults st text,
          ⟨(fabResults st text).length,
            ((fabResults st text).filter (fun w => w.isFabricated)).length,
            if 0 < (fabResults st text).length then
              (((fabResults st text).filter (fun w => w.isFabricated)).length : Rat) /
                ((fabResults st text).length : Rat)
            else 0⟩⟩ := by
      unfold analyzeFabrication
      rw [if_neg hsplit]
    rw [hA, fa_words, fa_stats, fs_total, fs_fab, fs_ratio]
    refine ⟨hlen, rfl, rfl, ?_⟩
    rw [if_pos hpos, if_neg (by omega)]

theorem startsWithL_append_left :
    ∀ (a b s : List Char), startsWithL (a ++ b) s = true → startsWithL a s = true := by
  intro a
  induction a with
  | nil => intro b s _; rfl
  | cons c cs ih =>
    intro b s h
    cases s with
    | nil => exact absurd h (by simp [startsWithL])
    | cons d ds =>
      simp only [List.cons_append, startsWithL, Bool.and_eq_true] at h ⊢
      exact ⟨h.1, ih b ds h.2⟩

theorem strIncludes_append_left :
    ∀ (hay a b : List Char), strIncludes hay (a ++ b) = true →
      strIncludes hay a = true := by
  intro hay
  induction hay with
  | nil =>
    intro a b h
    cases a with
    | nil => rfl
    | cons c cs => exact absurd h (by simp [strIncludes, startsWithL])
  | cons x t ih =>
    intro a b h
    unfold strIncludes at h ⊢
    rcases Bool.or_eq_true_iff.mp h with h1 | h1
    · exact Bool.or_eq_true_iff.mpr (Or.inl (startsWithL_append_left a b _ h1))
    · exact Bool.or_eq_true_iff.mpr (Or.inr (ih a b h1))

theorem joinWords_append_ex :
    ∀ (l1 l2 : List (List Char)), ∃ suf, joinWords (l1 ++ l2) = joinWords l1 ++ suf := by
  intro l1
  induction l1 with
  | nil => intro l2; exact ⟨joinWords l2, by simp [joinWords]⟩
  | cons w ws ih =>
    intro l2
    cases ws with
    | nil =>
      cases l2 with
      | nil => exact ⟨[], by simp [joinWords]⟩
      | cons x xs => exact ⟨' ' :: joinWords (x :: xs), rfl⟩
    | cons w2 t =>
      obtain ⟨suf, hsuf⟩ := ih l2
      refine ⟨suf, ?_⟩
      show w ++ ' ' :: joinWords ((w2 :: t) ++ l2) =
        (w ++ ' ' :: joinWords (w2 :: t)) ++ suf
      rw [hsuf]
      simp

/-- Containment of the space-joined span is monotone (downward closed)
in the span length: a shorter span from the same start is a prefix of
the longer one, and a prefix of a corpus substring is itself a corpus
substring.  This discharges the spec's open question about the binary
search assuming monotonic containment. -/
theorem fabProbe_mono (corpus : List Char) (ws : List (List Char)) (i : Nat) :
    ∀ x y, x ≤ y → fabProbe corpus ws i y = true → fabProbe corpus ws i x = true := by
  intro x y hxy hy
  have hsplit : (ws.drop i).take y =
      (ws.drop i).take x ++ ((ws.drop i).drop x).take (y - x) := by
    rw [← List.take_add]
    congr 1
    omega
  obtain ⟨suf, hsuf⟩ :=
    joinWords_append_ex ((ws.drop i).take x) (((ws.drop i).drop x).take (y - x))
  unfold fabProbe at hy ⊢
  rw [hsplit, hsuf] at hy
  exact strIncludes_append_left _ _ _ hy

theorem fabSearchF_spec (p : Nat → Bool) (N : Nat)
    (hmono : ∀ x y, x ≤ y → p y = true → p x = true) :
    ∀ (f lo hi best : Nat), hi + 1 - lo ≤ f → 1 ≤ lo → hi ≤ N → best ≤ N →
      (best = 0 ∨ p best = true) →
      (∀ L, 0 < L → L < lo → p L = true → L ≤ best) →
      (∀ L, hi < L → L ≤ N → p L = false) →
      ((fabSearchF p f lo hi best = 0 ∨ p (fabSearchF p f lo hi best) = true) ∧
       (∀ L, 0 < L → L ≤ N → p L = true → L ≤ fabSearchF p f lo hi best)) := by
  intro f
  induction f with
  | zero =>
    intro lo hi best hf hlo hhi hbest hp hlow hup
    refine ⟨hp, ?_⟩
    intro L hL1 hLN hpL
    by_cases hLlo : L < lo
    · exact hlow L hL1 hLlo hpL
    · exfalso
      have : hi < L := by omega
      rw [hup L this hLN] at hpL
      cases hpL
  | succ f ih =>
    intro lo hi best hf hlo hhi hbest hp hlow hup
    unfold fabSearchF
    by_cases hlh : lo ≤ hi
    · rw [if_pos hlh]
      have hmidlo : lo ≤ (lo + hi) / 2 := by omega
      have hmidhi : (lo + hi) / 2 ≤ hi := by omega
      by_cases hpm : p ((lo + hi) / 2) = true
      · rw [if_pos hpm]
        refine ih ((lo + hi) / 2 + 1) hi ((lo + hi) / 2) (by omega) (by omega)
          hhi (by omega) (Or.inr hpm) ?_ hup
        intro L _ hL2 _
        omega
      · rw [if_neg hpm]
        refine ih lo ((lo + hi) / 2 - 1) best (by omega) hlo (by omega) hbest
          hp hlow ?_
        intro L hL1 hL2
        by_cases hLhi : hi < L
        · exact hup L hLhi hL2
        · cases hpL : p L with
          | false => rfl
          | true =>
            exfalso
            exact hpm (hmono ((lo + hi) / 2) L (by omega) hpL)
    · rw [if_neg hlh]
      refine ⟨hp, ?_⟩
      intro L hL1 hLN hpL
      by_cases hLlo : L < lo
      · exact hlow L hL1 hLlo hpL
      · exfalso
        have : hi < L := by omega
        rw [hup L this hLN] at hpL
        cases hpL

theorem fabBest_spec (corpus : List Char) (ws : List (List Char)) (i : Nat) :
    (fabBest corpus ws i = 0 ∨
      fabProbe corpus ws i (fabBest corpus ws i) = true) ∧
    (∀ L, 0 < L → L ≤ ws.length - i → fabProbe corpus ws i L = true →
      L ≤ fabBest corpus ws i) := by
  have h := fabSearchF_spec (fabProbe corpus ws i) (ws.length - i)
    (fabProbe_mono corpus ws i) (ws.length - i + 1 - 1) 1 (ws.length - i) 0
    (by omega) (by omega) (by omega) (by omega) (Or.inl rfl)
    (fun L h1 h2 _ => by omega)
    (fun L h1 h2 => by exact absurd h1 (by omega))
  exact h

theorem fabScanF_fuel (corpus : List Char) (dws ws : List (List Char)) :
    ∀ (f1 f2 i : Nat), ws.length - i ≤ f1 → ws.length - i ≤ f2 →
      fabScanF corpus dws ws f1 i = fabScanF corpus dws ws f2 i := by
  intro f1
  induction f1 with
  | zero =>
    intro f2 i hf1 hf2
    cases f2 with
    | zero => rfl
    | succ g =>
      show fabScanF corpus dws ws 0 i = fabScanF corpus dws ws (g + 1) i
      unfold fabScanF
      rw [if_neg (by omega)]
  | succ f ih =>
    intro f2 i hf1 hf2
    cases f2 with
    | zero =>
      unfold fabScanF
      rw [if_neg (by omega)]
    | succ g =>
      unfold fabScanF
      by_cases hi : i < ws.length
      · rw [if_pos hi, if_pos hi]
        have hble := fabBest_le corpus ws i
        by_cases hb : 0 < fabBest corpus ws i
        · rw [if_pos hb, if_pos hb,
            ih g (i + fabBest corpus ws i) (by omega) (by omega)]
        · rw [if_neg hb, if_neg hb, ih g (i + 1) (by omega) (by omega)]
      · rw [if_neg hi, if_neg hi]

theorem fabScanF_succ (corpus : List Char) (dws ws : List (List Char))
    (f i : Nat) :
    fabScanF corpus dws ws (f + 1) i =
      if i < ws.length then
        if 0 < fabBest corpus ws i then
          ((List.range (fabBest corpus ws i)).map
            (fun k => ⟨dws.getD (i + k) [], false⟩)) ++
            fabScanF corpus dws ws f (i + fabBest corpus ws i)
        else ⟨dws.getD i [], true⟩ :: fabScanF corpus dws ws f (i + 1)
      else [] := rfl

/-- C3.  At every scan position `i` the binary search of
analyzeFabrication computes exactly the largest span length
`L ≤ remaining` whose space-joined words occur in the flattened
normalized corpus (0 when not even the single word at `i` occurs):
the result is bounded by the remaining word count, is itself contained
when positive, dominates every contained length (containment being
monotone by the prefix argument of `fabProbe_mono`), and is 0 only when
the single word is absent.  The scan then marks those words as not
fabricated and advances by that length, or marks the single word
fabricated and advances by one. -/
theorem analyzeFabrication_scan_spec (corpus : List Char)
    (dws ws : List (List Char)) (i : Nat) (h : i < ws.length) :
    fabBest corpus ws i ≤ ws.length - i ∧
    (fabBest corpus ws i = 0 ∨
      fabProbe corpus ws i (fabBest corpus ws i) = true) ∧
    (∀ L, 0 < L → L ≤ ws.length - i → fabProbe corpus ws i L = true →
      L ≤ fabBest corpus ws i) ∧
    (fabBest corpus ws i = 0 → fabProbe corpus ws i 1 = false) ∧
    (fabScan corpus dws ws i =
      if 0 < fabBest corpus ws i then
        ((List.range (fabBest corpus ws i)).map
          (fun k => ⟨dws.getD (i + k) [], false⟩)) ++
          fabScan corpus dws ws (i + fabBest corpus ws i)
      else ⟨dws.getD i [], true⟩ :: fabScan corpus dws ws (i + 1)) := by
  obtain ⟨hor, hmax⟩ := fabBest_spec corpus ws i
  have hble := fabBest_le corpus ws i
  refine ⟨hble, hor, hmax, ?_, ?_⟩
  · intro h0
    cases hp : fabProbe corpus ws i 1 with
    | false => rfl
    | true =>
      exfalso
      have := hmax 1 (by omega) (by omega) hp
      omega
  · have hscan : ∀ j : Nat, fabScan corpus dws ws j =
        fabScanF corpus dws ws (ws.length - j) j := fun j => rfl
    rw [hscan i, hscan (i + fabBest corpus ws i), hscan (i + 1)]
    have hfi : ws.length - i = (ws.length - i - 1) + 1 := by omega
    rw [hfi, fabScanF_succ, if_pos h]
    by_cases hb : 0 < fabBest corpus ws i
    · rw [if_pos hb, if_pos hb,
        fabScanF_fuel corpus dws ws (ws.length - i - 1)
          (ws.length - (i + fabBest corpus ws i)) (i + fabBest corpus ws i)
          (by omega) (by omega)]
    · rw [if_neg hb, if_neg hb,
        fabScanF_fuel corpus dws ws (ws.length - i - 1) (ws.length - (i + 1))
          (i + 1) (by omega) (by omega)]

def c3Corpus : List Char := joinWords ["بسم".data, "الله".data]

def c3Words : List (List Char) := ["بسم".data, "الله".data, "فلان".data]

theorem analyzeFabrication_scan_spec_witness :
    0 < c3Words.length ∧ fabBest c3Corpus c3Words 0 = 2 ∧
    (fabBest c3Corpus c3Words 0 = 0 ∨
      fabProbe c3Corpus c3Words 0 (fabBest c3Corpus c3Words 0) = true) :=
  ⟨by decide, by decide,
    (analyzeFabrication_scan_spec c3Corpus c3Words c3Words 0 (by decide)).2.1⟩

/-- The (riwaya, surah, ayah) address of a riwaya match. -/
def rmKey (m : RiwayaMatch) : String × Nat × Nat :=
  (m.riwaya, m.verse.surah, m.verse.ayah)

/-- The (riwaya, surah, ayah) address of a map entry. -/
def rveKey (e : RiwayaVerseEntry) : String × Nat × Nat :=
  (e.riwayaId, e.verse.surah, e.verse.ayah)

theorem vrmk_riwayaMatches (a : Bool) (b : MatchType) (c : Option QuranVerse)
    (d e f : Option (List Char)) (g : Option Int)
    (h : Option (List (QuranVerse × List Char))) (i : Option (List RiwayaMatch)) :
    (ValidationResult.mk a b c d e f g h i).riwayaMatches = i := rfl

theorem entries_pairwise (st : ValidatorSetup) (hm : multiRiwaya st = true)
    (hnd : st.loadedRiwayat.Nodup)
    (hrows : ∀ rid, (st.riwayaData rid).Pairwise
      (fun x y => ¬(x.surah = y.surah ∧ x.ayah = y.ayah))) :
    (riwayaEntries st).Pairwise (fun a b => rveKey a ≠ rveKey b) := by
  unfold riwayaEntries
  rw [if_pos hm, List.pairwise_flatten]
  constructor
  · intro l hl
    obtain ⟨rid, _, rfl⟩ := List.mem_map.mp hl
    rw [List.pairwise_map]
    refine (hrows rid).imp ?_
    intro x y hxy hk
    apply hxy
    have h1 := congrArg (fun p => p.2.1) hk
    have h2 := congrArg (fun p => p.2.2) hk
    simp only [rveKey, toVerseRef] at h1 h2
    exact ⟨h1, h2⟩
  · rw [List.pairwise_map]
    refine List.Pairwise.imp ?_ hnd
    intro r1 r2 hr12 x hx y hy hk
    obtain ⟨rv1, _, rfl⟩ := List.mem_map.mp hx
    obtain ⟨rv2, _, rfl⟩ := List.mem_map.mp hy
    have h1 := congrArg (fun p => p.1) hk
    simp only [rveKey] at h1
    exact hr12 h1

theorem exactPart_pairwise (st : ValidatorSetup) (hm : multiRiwaya st = true)
    (hnd : st.loadedRiwayat.Nodup)
    (hrows : ∀ rid, (st.riwayaData rid).Pairwise
      (fun x y => ¬(x.surah = y.surah ∧ x.ayah = y.ayah)))
    (trimmed : List Char) :
    ((exactTextMapGet st trimmed).map
      (fun e => (⟨e.riwayaId, MatchType.exact, e.verse, e.originalText⟩ :
        RiwayaMatch))).Pairwise (fun a b => rmKey a ≠ rmKey b) := by
  rw [List.pairwise_map]
  unfold exactTextMapGet
  refine List.Pairwise.imp ?_
    ((entries_pairwise st hm hnd hrows).filter
      (fun e => decide (e.originalText = trimmed)))
  intro a b hab hk
  exact hab hk

theorem rmKey_eq_rveKey_iff (m : RiwayaMatch) (e : RiwayaVerseEntry) :
    (m.riwaya = e.riwayaId ∧ m.verse.surah = e.verse.surah ∧
      m.verse.ayah = e.verse.ayah) ↔ rmKey m = rveKey e := by
  unfold rmKey rveKey
  constructor
  · rintro ⟨h1, h2, h3⟩
    rw [h1, h2, h3]
  · intro h
    exact ⟨congrArg (fun p => p.1) h, congrArg (fun p => p.2.1) h,
      congrArg (fun p => p.2.2) h⟩

theorem rmKey_mk_normalized (e : RiwayaVerseEntry) :
    rmKey ⟨e.riwayaId, MatchType.normalized, e.verse, e.originalText⟩ = rveKey e := rfl

theorem tag_of_mem_map_norm (l : List RiwayaVerseEntry) :
    ∀ m ∈ l.map (fun e => (⟨e.riwayaId, MatchType.normalized, e.verse,
      e.originalText⟩ : RiwayaMatch)), m.matchType = MatchType.normalized := by
  intro m hmm
  obtain ⟨e, _, rfl⟩ := List.mem_map.mp hmm
  rfl

theorem filter_cons_true {α : Type} (p : α → Bool) (a : α) (l : List α)
    (h : p a = true) : (a :: l).filter p = a :: l.filter p := by
  simp [List.filter_cons, h]

theorem filter_cons_false {α : Type} (p : α → Bool) (a : α) (l : List α)
    (h : p a = false) : (a :: l).filter p = l.filter p := by
  simp [List.filter_cons, h]

/-- The dedup fold of validateMultiRiwaya, resolved exactly: when the
pending entries have pairwise-distinct keys and their keys are absent
from the `extra` block of the accumulator, the fold appends precisely
the entries whose key does not occur in `base`, in list order, each
tagged normalized. -/
theorem foldl_dedupAdd_exact (base : List RiwayaMatch) :
    ∀ (l : List RiwayaVerseEntry) (extra : List RiwayaMatch),
      l.Pairwise (fun a b => rveKey a ≠ rveKey b) →
      (∀ e ∈ l, ∀ m ∈ extra, rmKey m ≠ rveKey e) →
      l.foldl dedupAdd (base ++ extra) = base ++ extra ++
        (l.filter (fun e => !(base.any (fun m => decide (m.riwaya = e.riwayaId ∧
          m.verse.surah = e.verse.surah ∧ m.verse.ayah = e.verse.ayah))))).map
          (fun e => ⟨e.riwayaId, MatchType.normalized, e.verse, e.originalText⟩) := by
  intro l
  induction l with
  | nil =>
    intro extra _ _
    simp
  | cons e t ih =>
    intro extra hpl hdisj
    have hpe : ∀ b ∈ t, rveKey e ≠ rveKey b := (List.pairwise_cons.mp hpl).1
    have hpt := (List.pairwise_cons.mp hpl).2
    have hextra : extra.any (fun m => decide (m.riwaya = e.riwayaId ∧
        m.verse.surah = e.verse.surah ∧ m.verse.ayah = e.verse.ayah)) = false := by
      rw [List.any_eq_false]
      intro m hmem
      simp only [decide_eq_true_iff]
      intro hconj
      exact hdisj e (List.mem_cons_self e t) m hmem
        ((rmKey_eq_rveKey_iff m e).mp hconj)
    have hacc : (base ++ extra).any (fun m => decide (m.riwaya = e.riwayaId ∧
        m.verse.surah = e.verse.surah ∧ m.verse.ayah = e.verse.ayah)) =
        base.any (fun m => decide (m.riwaya = e.riwayaId ∧
          m.verse.surah = e.verse.surah ∧ m.verse.ayah = e.verse.ayah)) := by
      rw [List.any_append, hextra, Bool.or_false]
    rw [List.foldl_cons]
    by_cases hb : base.any (fun m => decide (m.riwaya = e.riwayaId ∧
        m.verse.surah = e.verse.surah ∧ m.verse.ayah = e.verse.ayah)) = true
    · have hde : dedupAdd (base ++ extra) e = base ++ extra := by
        unfold dedupAdd
        rw [hacc, if_pos hb]
      rw [hde, ih extra hpt
        (fun x hx m hmem => hdisj x (List.mem_cons_of_mem e hx) m hmem)]
      rw [filter_cons_false _ e t (by simp only [hb, Bool.not_true])]
    · have hbf : base.any (fun m => decide (m.riwaya = e.riwayaId ∧
          m.verse.surah = e.verse.surah ∧ m.verse.ayah = e.verse.ayah)) = false :=
        Bool.eq_false_iff.mpr hb
      have hde : dedupAdd (base ++ extra) e = base ++ (extra ++
          [⟨e.riwayaId, MatchType.normalized, e.verse, e.originalText⟩]) := by
        unfold dedupAdd
        rw [hacc, if_neg hb, List.append_assoc]
      have hdisj2 : ∀ x ∈ t, ∀ m ∈ extra ++
          [(⟨e.riwayaId, MatchType.normalized, e.verse, e.originalText⟩ :
            RiwayaMatch)], rmKey m ≠ rveKey x := by
        intro x hx m hmem
        rcases List.mem_append.mp hmem with h | h
        · exact hdisj x (List.mem_cons_of_mem e hx) m h
        · have hme : m = ⟨e.riwayaId, MatchType.normalized, e.verse,
              e.originalText⟩ := by simpa using h
          rw [hme, rmKey_mk_normalized]
          exact hpe x hx
      rw [hde, ih (extra ++
        [(⟨e.riwayaId, MatchType.normalized, e.verse, e.originalText⟩ :
          RiwayaMatch)]) hpt hdisj2]
      rw [filter_cons_true _ e t (by simp only [hbf, Bool.not_false])]
      simp only [List.map_cons, List.append_assoc, List.singleton_append]

theorem foldl_dedupAdd_pairwise :
    ∀ (l : List RiwayaVerseEntry) (acc : List RiwayaMatch),
      acc.Pairwise (fun a b => rmKey a ≠ rmKey b) →
      (l.foldl dedupAdd acc).Pairwise (fun a b => rmKey a ≠ rmKey b) := by
  intro l
  induction l with
  | nil => intro acc h; exact h
  | cons e t ih =>
    intro acc h
    rw [List.foldl_cons]
    apply ih
    unfold dedupAdd
    by_cases hc : acc.any (fun m => decide (m.riwaya = e.riwayaId ∧
        m.verse.surah = e.verse.surah ∧ m.verse.ayah = e.verse.ayah)) = true
    · rw [if_pos hc]
      exact h
    · rw [if_neg hc]
      rw [List.pairwise_append]
      refine ⟨h, List.pairwise_singleton _ _, ?_⟩
      intro a ha b hb
      have hb2 : b = ⟨e.riwayaId, MatchType.normalized, e.verse, e.originalText⟩ := by
        simpa using hb
      have hc2 : acc.any (fun m => decide (m.riwaya = e.riwayaId ∧
          m.verse.surah = e.verse.surah ∧ m.verse.ayah = e.verse.ayah)) = false :=
        Bool.eq_false_iff.mpr hc
      have hna := List.any_eq_false.mp hc2 a ha
      rw [hb2]
      intro hk
      apply hna
      have h1 := congrArg (fun p => p.1) hk
      have h2 := congrArg (fun p => p.2.1) hk
      have h3 := congrArg (fun p => p.2.2) hk
      simp only [rmKey] at h1 h2 h3
      simp only [decide_eq_true_iff]
      exact ⟨h1, h2, h3⟩

theorem sortExactFirst_partition (l1 l2 : List RiwayaMatch)
    (h1 : ∀ m ∈ l1, m.matchType = MatchType.exact)
    (h2 : ∀ m ∈ l2, m.matchType = MatchType.normalized) :
    sortExactFirst (l1 ++ l2) = l1 ++ l2 := by
  unfold sortExactFirst
  rw [List.filter_append, List.filter_append]
  have e1 : l1.filter (fun m => decide (m.matchType = MatchType.exact)) = l1 :=
    List.filter_eq_self.mpr (fun a ha => by simp [h1 a ha])
  have e2 : l2.filter (fun m => decide (m.matchType = MatchType.exact)) = [] :=
    List.filter_eq_nil_iff.mpr (fun a ha => by simp [h2 a ha])
  have e3 : l1.filter (fun m => decide (¬m.matchType = MatchType.exact)) = [] :=
    List.filter_eq_nil_iff.mpr (fun a ha => by simp [h1 a ha])
  have e4 : l2.filter (fun m => decide (¬m.matchType = MatchType.exact)) = l2 :=
    List.filter_eq_self.mpr (fun a ha => by simp [h2 a ha])
  rw [e1, e2, e3, e4]
  simp

/-- C8.  In multi-variant mode (with distinct loaded riwaya identifiers
and per-riwaya rows at distinct addresses, per the spec's data model),
the riwayaMatches list returned by `validate` has pairwise-distinct
(riwaya, surah, ayah) keys, carries only exact/normalized tags, and
equals exactly: the exact-map hits in map insertion order, tagged
exact, followed by those normalized-map hits whose (riwaya, surah,
ayah) key collides with no exact hit, in map insertion order, tagged
normalized.  So exact entries precede normalized ones, the order is
otherwise stable (each block keeps its map's insertion order), and an
address matched both ways appears once, tagged exact. -/
theorem validate_multi_riwaya_matches (st : ValidatorSetup) (text : List Char)
    (hm : multiRiwaya st = true)
    (hnd : st.loadedRiwayat.Nodup)
    (hrows : ∀ rid, (st.riwayaData rid).Pairwise
      (fun x y => ¬(x.surah = y.surah ∧ x.ayah = y.ayah))) :
    ∀ L, (validate st text).riwayaMatches = some L →
      L.Pairwise (fun a b => rmKey a ≠ rmKey b) ∧
      (∀ m ∈ L, m.matchType = MatchType.exact ∨
        m.matchType = MatchType.normalized) ∧
      L = (exactTextMapGet st (jsTrim text)).map
          (fun e => ⟨e.riwayaId, MatchType.exact, e.verse, e.originalText⟩) ++
        ((normalizedRiwayaMapGet st (normalizeFabrication (jsTrim text))).filter
          (fun e => !(((exactTextMapGet st (jsTrim text)).map
            (fun x => (⟨x.riwayaId, MatchType.exact, x.verse, x.originalText⟩ :
              RiwayaMatch))).any (fun m => decide (m.riwaya = e.riwayaId ∧
                m.verse.surah = e.verse.surah ∧
                m.verse.ayah = e.verse.ayah))))).map
          (fun e => ⟨e.riwayaId, MatchType.normalized, e.verse, e.originalText⟩) ∧
      (∀ e ∈ exactTextMapGet st (jsTrim text), ∃ m ∈ L,
        rmKey m = rveKey e ∧ m.matchType = MatchType.exact) := by
  intro L hL
  by_cases hca : containsArabic (jsTrim text) = false
  · exfalso
    have hvB : validate st text = noMatchResult (normalizeArabic (jsTrim text)) := by
      unfold validate
      simp [hca]
    rw [hvB] at hL
    simp [noMatchResult] at hL
  · have hca2 : containsArabic (jsTrim text) = true := by
      cases h : containsArabic (jsTrim text) with
      | false => exact absurd h hca
      | true => rfl
    have hv : validate st text = validateMultiRiwaya st (jsTrim text)
        (normalizeArabic (jsTrim text)) (normalizeFabrication (jsTrim text)) := by
      unfold validate
      simp [hca2, hm]
    rw [hv] at hL
    unfold validateMultiRiwaya at hL
    split at hL
    · simp [noMatchResult] at hL
    · rename_i best rest heq
      rw [vrmk_riwayaMatches] at hL
      have hLe : L = best :: rest := (Option.some.inj hL).symm
      have hNpw : (normalizedRiwayaMapGet st
          (normalizeFabrication (jsTrim text))).Pairwise
          (fun a b => rveKey a ≠ rveKey b) := by
        unfold normalizedRiwayaMapGet
        exact (entries_pairwise st hm hnd hrows).filter _
      have hfold := foldl_dedupAdd_exact
        ((exactTextMapGet st (jsTrim text)).map
          (fun e => ⟨e.riwayaId, MatchType.exact, e.verse, e.originalText⟩))
        (normalizedRiwayaMapGet st (normalizeFabrication (jsTrim text)))
        [] hNpw (by intro x hx m hmem; cases hmem)
      simp only [List.append_nil] at hfold
      have hx : ∀ m ∈ (exactTextMapGet st (jsTrim text)).map
          (fun e => (⟨e.riwayaId, MatchType.exact, e.verse, e.originalText⟩ :
            RiwayaMatch)), m.matchType = MatchType.exact := by
        intro m hmm
        obtain ⟨e, _, rfl⟩ := List.mem_map.mp hmm
        rfl
      have hLs : L = (exactTextMapGet st (jsTrim text)).map
          (fun e => ⟨e.riwayaId, MatchType.exact, e.verse, e.originalText⟩) ++
        ((normalizedRiwayaMapGet st (normalizeFabrication (jsTrim text))).filter
          (fun e => !(((exactTextMapGet st (jsTrim text)).map
            (fun x => (⟨x.riwayaId, MatchType.exact, x.verse, x.originalText⟩ :
              RiwayaMatch))).any (fun m => decide (m.riwaya = e.riwayaId ∧
                m.verse.surah = e.verse.surah ∧
                m.verse.ayah = e.verse.ayah))))).map
          (fun e => ⟨e.riwayaId, MatchType.normalized, e.verse,
            e.originalText⟩) := by
        rw [hLe, ← heq, hfold]
        exact sortExactFirst_partition _ _ hx (tag_of_mem_map_norm _)
      have hpw := foldl_dedupAdd_pairwise
        (normalizedRiwayaMapGet st (normalizeFabrication (jsTrim text)))
        ((exactTextMapGet st (jsTrim text)).map
          (fun e => ⟨e.riwayaId, MatchType.exact, e.verse, e.originalText⟩))
        (exactPart_pairwise st hm hnd hrows (jsTrim text))
      rw [hfold] at hpw
      refine ⟨by rw [hLs]; exact hpw, ?_, hLs, ?_⟩
      · intro m hmm
        rw [hLs] at hmm
        rcases List.mem_append.mp hmm with h | h
        · exact Or.inl (hx m h)
        · exact Or.inr (tag_of_mem_map_norm _ m h)
      · intro e he
        refine ⟨⟨e.riwayaId, MatchType.exact, e.verse, e.originalText⟩, ?_, rfl, rfl⟩
        rw [hLs]
        exact List.mem_append_left _ (List.mem_map_of_mem _ he)

def c8Hafs : List MinimalVerse := [⟨1, 1, 1, "بِسْمِ".data⟩]

def c8Warsh : List MinimalVerse := [⟨1, 1, 1, "بسم".data⟩]

def c8Setup : ValidatorSetup :=
  { verses := [], loadedRiwayat := ["hafs", "warsh"],
    riwayaData := fun rid =>
      if rid = "hafs" then c8Hafs else if rid = "warsh" then c8Warsh else [] }

theorem validate_multi_riwaya_matches_witness :
    multiRiwaya c8Setup = true ∧
    ∃ L, (validate c8Setup "بِسْمِ".data).riwayaMatches = some L ∧
      L.Pairwise (fun a b => rmKey a ≠ rmKey b) ∧
      (∀ m ∈ L, m.matchType = MatchType.exact ∨
        m.matchType = MatchType.normalized) := by
  have hrows : ∀ rid, (c8Setup.riwayaData rid).Pairwise
      (fun x y => ¬(x.surah = y.surah ∧ x.ayah = y.ayah)) := by
    intro rid
    show (if rid = "hafs" then c8Hafs else
      if rid = "warsh" then c8Warsh else []).Pairwise _
    by_cases h1 : rid = "hafs"
    · rw [if_pos h1]
      exact List.pairwise_singleton _ _
    · rw [if_neg h1]
      by_cases h2 : rid = "warsh"
      · rw [if_pos h2]
        exact List.pairwise_singleton _ _
      · rw [if_neg h2]
        exact List.Pairwise.nil
  have hL : (validate c8Setup "بِسْمِ".data).riwayaMatches =
      some [⟨"hafs", MatchType.exact, ⟨1, 1, 1, "بِسْمِ".data, [], 0, 0⟩,
        "بِسْمِ".data⟩,
        ⟨"warsh", MatchType.normalized, ⟨1, 1, 1, "بسم".data, [], 0, 0⟩,
          "بسم".data⟩] := by decide
  have h := validate_multi_riwaya_matches c8Setup "بِسْمِ".data (by decide)
    (by decide) hrows _ hL
  exact ⟨by decide, _, hL, h.1, h.2.1⟩

end QV
